import Mathlib

/-!
Verification development for the photon_weave tensor-product state engine.

The Python sources are embedded shallowly:

* `extra/einsum_constructor.py` — the contraction planners become functions
  from lists of state-object identifiers (modelled as `Nat` uids; the Python
  dictionaries keyed on state objects become functions `Nat → List Nat`) to
  the einsum index lists; the final `chr(97+i)` rendering into an einsum
  string is embedded separately.
* einsum application (`jnp.einsum`) gets an executable semantics
  (`einsumEval`) over an arbitrary commutative semiring of scalars: the
  output at an assignment of the output indices is the sum, over all values
  of the indices that do not occur in the output list, of the product of the
  operand entries.
* `state/base_state.py`, `state/envelope.py`,
  `operation/helpers/fock_dimension_esitmation.py` and `photon_weave.py`
  are embedded as explicit state-passing functions further below.
-/

namespace PhotonWeave

/-! ## Index-plan constructors (`extra/einsum_constructor.py`)

State objects are identified by `Nat` uids.  The mutable `einsum_dict` of
the source is a function `Nat → List Nat`, and `itertools.count` is an
explicitly threaded counter. -/

/-- The dictionary update `einsum_dict[s].append(c)`. -/
def dictApp (d : Nat → List Nat) (s : Nat) (c : Nat) : Nat → List Nat :=
  fun t => if t = s then d t ++ [c] else d t

/-- The loop shape
`for s in objs: c = next(counter); einsum_dict[s].append(c); acc.append(c)`
shared by the state-index and operator-index loops of
`apply_operator_vector`.  Returns the final counter, dictionary and
accumulated index list. -/
def assignFresh : List Nat → Nat → (Nat → List Nat) → List Nat → Nat × (Nat → List Nat) × List Nat
  | [], c, d, acc => (c, d, acc)
  | s :: rest, c, d, acc => assignFresh rest (c + 1) (dictApp d s c) (acc ++ [c])

/-- Index lists built by `apply_operator_vector(state_objs, operator_objs)`:
the triple `(operator indices, state indices, result indices)`
(`einsum_list_list` in the source).  The state loop assigns one fresh index
per state object, then one extra index `ed` for the trailing column axis;
the operator loop assigns fresh output indices and then reuses each acted-on
object's first (ket) index; the result takes `dict[s][1]` for acted-on
objects and `dict[s][0]` otherwise, followed by `ed`. -/
def applyOperatorVectorLists (stateObjs operatorObjs : List Nat) :
    List Nat × List Nat × List Nat :=
  let p1 := assignFresh stateObjs 0 (fun _ => []) []
  let ed := p1.1
  let l1 := p1.2.2 ++ [ed]
  let p2 := assignFresh operatorObjs (ed + 1) p1.2.1 []
  let dict := p2.2.1
  let l0 := p2.2.2 ++ operatorObjs.map (fun s => (dict s).headD 0)
  let l2 := stateObjs.map
      (fun s => if s ∈ operatorObjs then (dict s).getD 1 0 else (dict s).headD 0) ++ [ed]
  (l0, l1, l2)

/-- The rendering `chr(97 + i)` of one index. -/
def idxChar (i : Nat) : Char := Char.ofNat (97 + i)

/-- The rendering `"".join([chr(97 + i) for i in s])` of one index list. -/
def idxString (l : List Nat) : String := String.mk (l.map idxChar)

/-- The einsum string returned by `apply_operator_vector`. -/
def apply_operator_vector (stateObjs operatorObjs : List Nat) : String :=
  let p := applyOperatorVectorLists stateObjs operatorObjs
  idxString p.1 ++ "," ++ idxString p.2.1 ++ "->" ++ idxString p.2.2

/-- The loop of `trace_out_vector`: every state object consumes a fresh
counter value and contributes it to the operand index list; objects that are
kept (members of `states`) also contribute it to the output index list. -/
def tovLoop (states : List Nat) : List Nat → Nat → List Nat → List Nat → Nat × List Nat × List Nat
  | [], c, l0, l1 => (c, l0, l1)
  | so :: rest, c, l0, l1 =>
    if so ∈ states then tovLoop states rest (c + 1) (l0 ++ [c]) (l1 ++ [c])
    else tovLoop states rest (c + 1) (l0 ++ [c]) l1

/-- Index lists `(operand indices, output indices)` built by
`trace_out_vector(state_objs, states)`; after the loop one further fresh
index (the trailing column axis) is appended to both lists. -/
def traceOutVectorLists (stateObjs states : List Nat) : List Nat × List Nat :=
  let p := tovLoop states stateObjs 0 [] []
  (p.2.1 ++ [p.1], p.2.2 ++ [p.1])

/-- The einsum string returned by `trace_out_vector`. -/
def trace_out_vector (stateObjs states : List Nat) : String :=
  let p := traceOutVectorLists stateObjs states
  idxString p.1 ++ "->" ++ idxString p.2

/-- One pass of the `trace_out_matrix` loop: kept objects (members of
`states`) consume a fresh counter value appended to both index lists;
dropped objects append the shared index `sumOut` to the operand list only. -/
def tomLoop (states : List Nat) (sumOut : Nat) :
    List Nat → Nat → List Nat → List Nat → Nat × List Nat × List Nat
  | [], c, l0, l1 => (c, l0, l1)
  | so :: rest, c, l0, l1 =>
    if so ∈ states then tomLoop states sumOut rest (c + 1) (l0 ++ [c]) (l1 ++ [c])
    else tomLoop states sumOut rest c (l0 ++ [sumOut]) l1

/-- Index lists `(operand indices, output indices)` built by
`trace_out_matrix(state_objs, states)`: `sum_out = next(counter)` is drawn
first (so it equals `0`), then the loop body runs twice over the full state
list (row legs, then column legs). -/
def traceOutMatrixLists (stateObjs states : List Nat) : List Nat × List Nat :=
  let sumOut := 0
  let p1 := tomLoop states sumOut stateObjs 1 [] []
  let p2 := tomLoop states sumOut stateObjs p1.1 p1.2.1 p1.2.2
  (p2.2.1, p2.2.2)

/-- The einsum string returned by `trace_out_matrix`. -/
def trace_out_matrix (stateObjs states : List Nat) : String :=
  let p := traceOutMatrixLists stateObjs states
  idxString p.1 ++ "->" ++ idxString p.2

/-- The loop of `reorder_vector`: each state object receives a fresh counter
value, recorded both in the operand index list and in `einsum_dict` (which
maps state objects to a single index, initialised to `-1`). -/
def reorderAssign : List Nat → Nat → (Nat → Int) → List Int → Nat × (Nat → Int) × List Int
  | [], c, d, acc => (c, d, acc)
  | s :: rest, c, d, acc =>
    reorderAssign rest (c + 1) (fun t => if t = s then (c : Int) else d t) (acc ++ [(c : Int)])

/-- Index lists `(operand indices, output indices)` built by
`reorder_vector(state_objs, states)`: the extra column index `other` is
drawn first (so it equals `0`) and appended last on both sides; the output
list reads the dictionary in the new order `states`. -/
def reorderVectorLists (stateObjs states : List Nat) : List Int × List Int :=
  let other : Nat := 0
  let p := reorderAssign stateObjs (other + 1) (fun _ => -1) []
  (p.2.2 ++ [(other : Int)], states.map p.2.1 ++ [(other : Int)])

/-- The rendering of a `reorder_vector` index list (`chr(97 + s)`). -/
def idxStringI (l : List Int) : String := String.mk (l.map (fun i => Char.ofNat (97 + i).toNat))

/-- The einsum string returned by `reorder_vector`. -/
def reorder_vector (stateObjs states : List Nat) : String :=
  let p := reorderVectorLists stateObjs states
  idxStringI p.1 ++ "->" ++ idxStringI p.2

/-- The loop of `measure_vector`: every state object consumes a fresh
counter value appended to the operand index list; exposed objects (members
of `states`) also contribute it to the output index list. -/
def mvLoop (states : List Nat) : List Nat → Nat → List Nat → List Nat → Nat × List Nat × List Nat
  | [], c, l0, l1 => (c, l0, l1)
  | so :: rest, c, l0, l1 =>
    if so ∈ states then mvLoop states rest (c + 1) (l0 ++ [c]) (l1 ++ [c])
    else mvLoop states rest (c + 1) (l0 ++ [c]) l1

/-- Index lists `(operand indices, output indices)` built by
`measure_vector(state_objs, states)`; one further fresh index (the trailing
column axis, "accounting for the verical nature of vector") is appended to
both lists. -/
def measureVectorLists (stateObjs states : List Nat) : List Nat × List Nat :=
  let p := mvLoop states stateObjs 0 [] []
  (p.2.1 ++ [p.1], p.2.2 ++ [p.1])

/-- The einsum string returned by `measure_vector`. -/
def measure_vector (stateObjs states : List Nat) : String :=
  let p := measureVectorLists stateObjs states
  idxString p.1 ++ "->" ++ idxString p.2

/-! ## Semantics of einsum application (`jnp.einsum`)

An operand is an index list together with a tensor, a function from the
list of coordinates of its axes to a scalar.  `jnp.einsum` evaluates, at
each assignment of the output indices, the sum over all values of the
non-output indices of the product of the operand entries; an index repeated
inside one operand reads that operand on the corresponding diagonal. -/

section EinsumSemantics

variable {R : Type} [CommSemiring R]

/-- Sum a function of an index assignment over all values (below the
dimension bound) of the listed index variables. -/
def sumOver (dims : Nat → Nat) : List Nat → ((Nat → Nat) → R) → (Nat → Nat) → R
  | [], f, env => f env
  | v :: vs, f, env => ∑ k ∈ Finset.range (dims v), sumOver dims vs f (Function.update env v k)

/-- The index variables summed by an einsum expression: those occurring in
some operand index list but not in the output index list. -/
def summedVars (ops : List (List Nat)) (out : List Nat) : List Nat :=
  (ops.flatten.dedup).filter (fun v => decide (v ∉ out))

/-- Evaluation of an einsum expression with operand index lists/tensors
`ops` and output index list `out`, at an assignment `env` of the output
index variables. -/
def einsumEval (dims : Nat → Nat) (ops : List (List Nat × (List Nat → R)))
    (out : List Nat) (env : Nat → Nat) : R :=
  sumOver dims (summedVars (ops.map Prod.fst) out)
    (fun e => (ops.map (fun p => p.2 (p.1.map e))).prod) env

/-- Iterated sum over tuples of coordinates with the given list of
dimension bounds. -/
def multiSum : List Nat → (List Nat → R) → R
  | [], f => f []
  | d :: ds, f => ∑ k ∈ Finset.range d, multiSum ds (fun js => f (k :: js))

end EinsumSemantics

/-- Update an assignment pointwise: variable `vars[i]` receives value
`js[i]`. -/
def updList (env : Nat → Nat) : List Nat → List Nat → Nat → Nat
  | [], _ => env
  | _ :: _, [] => env
  | v :: vs, j :: js => updList (Function.update env v j) vs js

/-! ## Generic lemmas about the einsum semantics -/

lemma updList_apply_of_not_mem :
    ∀ (vars js : List Nat) (env : Nat → Nat) (x : Nat), x ∉ vars → updList env vars js x = env x
  | [], _, _, _, _ => rfl
  | _ :: _, [], _, _, _ => rfl
  | v :: vs, j :: js, env, x, hx => by
    have hxv : x ≠ v := fun h => hx (h ▸ List.mem_cons_self v vs)
    have hxvs : x ∉ vs := fun h => hx (List.mem_cons_of_mem v h)
    rw [updList, updList_apply_of_not_mem vs js _ x hxvs, Function.update_noteq hxv]

lemma updList_apply_mem :
    ∀ (vars js : List Nat) (env : Nat → Nat) (x : Nat), vars.Nodup →
      js.length = vars.length → x ∈ vars → updList env vars js x = js.getD (vars.indexOf x) 0
  | [], _, _, _, _, _, hx => absurd hx (List.not_mem_nil _)
  | v :: vs, j :: js, env, x, hn, hl, hx => by
    rcases List.mem_cons.mp hx with h | h
    · subst h
      have hxvs : x ∉ vs := (List.nodup_cons.mp hn).1
      rw [updList, updList_apply_of_not_mem vs js _ x hxvs, Function.update_same,
        List.indexOf_cons_self, List.getD_cons_zero]
    · have hxv : x ≠ v := fun he => (List.nodup_cons.mp hn).1 (he ▸ h)
      rw [updList, updList_apply_mem vs js _ x (List.nodup_cons.mp hn).2
        (Nat.succ_injective hl) h, List.indexOf_cons_ne _ (Ne.symm hxv), List.getD_cons_succ]

lemma map_updList_of_disjoint (idxs vars js : List Nat) (env : Nat → Nat)
    (h : ∀ i ∈ idxs, i ∉ vars) : idxs.map (updList env vars js) = idxs.map env :=
  List.map_congr_left fun i hi => updList_apply_of_not_mem vars js env i (h i hi)

lemma map_updList_self :
    ∀ (vars js : List Nat) (env : Nat → Nat), vars.Nodup → js.length = vars.length →
      vars.map (updList env vars js) = js
  | [], [], _, _, _ => rfl
  | [], _ :: _, _, _, hl => absurd hl (by simp)
  | _ :: _, [], _, _, hl => absurd hl (by simp)
  | v :: vs, j :: js, env, hn, hl => by
    have hv : v ∉ vs := (List.nodup_cons.mp hn).1
    rw [List.map_cons, updList, updList_apply_of_not_mem vs js _ v hv, Function.update_same,
      map_updList_self vs js _ (List.nodup_cons.mp hn).2 (Nat.succ_injective hl)]

section EinsumLemmas

variable {R : Type} [CommSemiring R]

lemma sumOver_eq_multiSum (dims : Nat → Nat) :
    ∀ (vars : List Nat) (f : (Nat → Nat) → R) (env : Nat → Nat),
      sumOver dims vars f env = multiSum (vars.map dims) (fun js => f (updList env vars js))
  | [], f, env => rfl
  | v :: vs, f, env => by
    simp only [sumOver, List.map_cons, multiSum]
    exact Finset.sum_congr rfl fun k _ => sumOver_eq_multiSum dims vs f _

lemma multiSum_congr :
    ∀ (ds : List Nat) (f g : List Nat → R),
      (∀ js, js.length = ds.length → f js = g js) → multiSum ds f = multiSum ds g
  | [], f, g, h => h [] rfl
  | d :: ds, f, g, h => by
    simp only [multiSum]
    exact Finset.sum_congr rfl fun k _ =>
      multiSum_congr ds _ _ fun js hjs => h (k :: js) (by simp [hjs])

lemma sumOver_perm (dims : Nat → Nat) {v1 v2 : List Nat} (h : v1.Perm v2) :
    ∀ (f : (Nat → Nat) → R) (env : Nat → Nat), sumOver dims v1 f env = sumOver dims v2 f env := by
  induction h with
  | nil => intro f env; rfl
  | cons x _ ih =>
    intro f env
    simp only [sumOver]
    exact Finset.sum_congr rfl fun k _ => ih f _
  | swap x y l =>
    intro f env
    by_cases hxy : x = y
    · subst hxy; rfl
    · simp only [sumOver]
      rw [Finset.sum_comm]
      refine Finset.sum_congr rfl fun k _ => Finset.sum_congr rfl fun k2 _ => ?_
      rw [Function.update_comm (Ne.symm hxy)]
  | trans _ _ ih1 ih2 => intro f env; rw [ih1, ih2]

end EinsumLemmas

/-! ## List helper lemmas used to compute `summedVars` for the generated plans -/

lemma union_eq_append_of_disjoint :
    ∀ (l1 l2 : List Nat), l1.Nodup → (∀ x ∈ l1, x ∉ l2) → l1 ∪ l2 = l1 ++ l2
  | [], l2, _, _ => by simp [List.nil_union]
  | a :: l1, l2, hn, hd => by
    have ha1 : a ∉ l1 := (List.nodup_cons.mp hn).1
    have ha2 : a ∉ l2 := hd a (List.mem_cons_self a l1)
    rw [List.cons_union, union_eq_append_of_disjoint l1 l2 (List.nodup_cons.mp hn).2
      (fun x hx => hd x (List.mem_cons_of_mem a hx)), List.cons_append,
      List.insert_of_not_mem (by simp [ha1, ha2])]

lemma union_eq_self_of_subset :
    ∀ (l1 l2 : List Nat), (∀ x ∈ l1, x ∈ l2) → l1 ∪ l2 = l2
  | [], l2, _ => by simp [List.nil_union]
  | a :: l1, l2, h => by
    rw [List.cons_union, union_eq_self_of_subset l1 l2
      (fun x hx => h x (List.mem_cons_of_mem a hx)),
      List.insert_of_mem (h a (List.mem_cons_self a l1))]

lemma append_union_assoc (a b c : List Nat) : (a ++ b) ∪ c = a ∪ (b ∪ c) := by
  show List.foldr List.insert c (a ++ b) = List.foldr List.insert (List.foldr List.insert c b) a
  rw [List.foldr_append]

/-! ## Closed forms for the index lists built by the plan constructors -/

lemma assignFresh_counter :
    ∀ (objs : List Nat) (c : Nat) (d : Nat → List Nat) (acc : List Nat),
      (assignFresh objs c d acc).1 = c + objs.length
  | [], c, d, acc => by simp [assignFresh]
  | s :: rest, c, d, acc => by
    rw [assignFresh, assignFresh_counter rest (c + 1) _ _]
    simp [Nat.add_comm, Nat.add_assoc, Nat.add_left_comm]

lemma assignFresh_acc :
    ∀ (objs : List Nat) (c : Nat) (d : Nat → List Nat) (acc : List Nat),
      (assignFresh objs c d acc).2.2 = acc ++ List.range' c objs.length
  | [], c, d, acc => by simp [assignFresh]
  | s :: rest, c, d, acc => by
    rw [assignFresh, assignFresh_acc rest (c + 1) _ _, List.length_cons, List.range'_succ]
    simp

lemma assignFresh_dict :
    ∀ (objs : List Nat) (c : Nat) (d : Nat → List Nat) (acc : List Nat) (a : Nat), objs.Nodup →
      ((assignFresh objs c d acc).2.1) a =
        d a ++ (if a ∈ objs then [c + objs.indexOf a] else [])
  | [], c, d, acc, a, _ => by simp [assignFresh]
  | s :: rest, c, d, acc, a, hn => by
    rw [assignFresh, assignFresh_dict rest (c + 1) _ _ a (List.nodup_cons.mp hn).2]
    by_cases has : a = s
    · subst has
      have : a ∉ rest := (List.nodup_cons.mp hn).1
      simp [dictApp, this, List.indexOf_cons_self]
    · simp only [dictApp, if_neg has]
      by_cases har : a ∈ rest
      · have : a ∈ s :: rest := List.mem_cons_of_mem s har
        simp only [if_pos har, if_pos this, List.indexOf_cons_ne _ (Ne.symm has)]
        have : c + 1 + rest.indexOf a = c + (rest.indexOf a + 1) := by omega
        rw [this]
      · have : a ∉ s :: rest := by simp [has, har]
        simp [har, this]

lemma aov_state_indices (s ops : List Nat) :
    (applyOperatorVectorLists s ops).2.1 = List.range s.length ++ [s.length] := by
  dsimp only [applyOperatorVectorLists]
  rw [assignFresh_acc, assignFresh_counter, List.nil_append, Nat.zero_add,
    ← List.range_eq_range']

lemma aov_dict2 (s ops : List Nat) (hs : s.Nodup) (hops : ops.Nodup) (a : Nat) :
    ((assignFresh ops (s.length + 1) (assignFresh s 0 (fun _ => []) []).2.1 []).2.1) a =
      (if a ∈ s then [s.indexOf a] else []) ++
        (if a ∈ ops then [s.length + 1 + ops.indexOf a] else []) := by
  rw [assignFresh_dict ops _ _ _ a hops, assignFresh_dict s _ _ _ a hs]
  simp [Nat.zero_add]

lemma aov_operator_indices (s ops : List Nat) (hs : s.Nodup) (hops : ops.Nodup)
    (hsub : ∀ a ∈ ops, a ∈ s) :
    (applyOperatorVectorLists s ops).1 =
      List.range' (s.length + 1) ops.length ++ ops.map (fun a => s.indexOf a) := by
  dsimp only [applyOperatorVectorLists]
  rw [assignFresh_counter, Nat.zero_add, assignFresh_acc]
  simp only [List.nil_append]
  congr 1
  refine List.map_congr_left fun a ha => ?_
  rw [aov_dict2 s ops hs hops a]
  simp [hsub a ha, ha]

lemma aov_result_indices (s ops : List Nat) (hs : s.Nodup) (hops : ops.Nodup) :
    (applyOperatorVectorLists s ops).2.2 =
      s.map (fun a => if a ∈ ops then s.length + 1 + ops.indexOf a else s.indexOf a) ++
        [s.length] := by
  dsimp only [applyOperatorVectorLists]
  rw [assignFresh_counter, Nat.zero_add]
  congr 1
  refine List.map_congr_left fun a ha => ?_
  rw [aov_dict2 s ops hs hops a]
  by_cases hao : a ∈ ops
  · simp [hao, ha]
  · simp [hao, ha]

/-- Output positions collected by the `trace_out_vector` / `measure_vector`
loop: the counter values handed to state objects that are members of
`states`. -/
def keptIdx (states : List Nat) : List Nat → Nat → List Nat
  | [], _ => []
  | so :: rest, c =>
    if so ∈ states then c :: keptIdx states rest (c + 1) else keptIdx states rest (c + 1)

lemma keptIdx_eq_filter (states : List Nat) :
    ∀ (objs : List Nat) (c : Nat),
      keptIdx states objs c =
        ((List.range objs.length).filter
          (fun i => decide (objs.getD i 0 ∈ states))).map (fun i => c + i)
  | [], c => rfl
  | so :: rest, c => by
    rw [keptIdx, keptIdx_eq_filter states rest (c + 1), List.length_cons,
      List.range_succ_eq_map, List.filter_cons, List.filter_map]
    have hfil : List.filter ((fun i => decide ((so :: rest).getD i 0 ∈ states)) ∘ Nat.succ)
        (List.range rest.length) =
        List.filter (fun i => decide (rest.getD i 0 ∈ states)) (List.range rest.length) :=
      List.filter_congr fun i _ => by simp [Function.comp]
    have hmap : (List.map Nat.succ
          (List.filter (fun i => decide (rest.getD i 0 ∈ states))
            (List.range rest.length))).map (fun i => c + i) =
        (List.filter (fun i => decide (rest.getD i 0 ∈ states))
          (List.range rest.length)).map (fun i => c + 1 + i) := by
      rw [List.map_map]
      exact List.map_congr_left fun i _ => by simp only [Function.comp_apply]; omega
    by_cases hso : so ∈ states
    · rw [if_pos hso, if_pos (by simp [hso] : decide ((so :: rest).getD 0 0 ∈ states) = true),
        hfil, List.map_cons, hmap]
      simp
    · rw [if_neg hso,
        if_neg (by simp [hso] : ¬decide ((so :: rest).getD 0 0 ∈ states) = true),
        hfil, hmap]

lemma tovLoop_eq (states : List Nat) :
    ∀ (objs : List Nat) (c : Nat) (l0 l1 : List Nat),
      tovLoop states objs c l0 l1 =
        (c + objs.length, l0 ++ List.range' c objs.length, l1 ++ keptIdx states objs c)
  | [], c, l0, l1 => by simp [tovLoop, keptIdx]
  | so :: rest, c, l0, l1 => by
    rw [tovLoop.eq_def]
    by_cases hso : so ∈ states
    · simp only [if_pos hso]
      rw [tovLoop_eq states rest (c + 1) _ _, keptIdx, if_pos hso, List.length_cons,
        List.range'_succ]
      refine Prod.ext (by omega) (Prod.ext ?_ ?_) <;> simp
    · simp only [if_neg hso]
      rw [tovLoop_eq states rest (c + 1) _ _, keptIdx, if_neg hso, List.length_cons,
        List.range'_succ]
      refine Prod.ext (by omega) (Prod.ext ?_ ?_) <;> simp

lemma traceOutVectorLists_eq (s keep : List Nat) :
    traceOutVectorLists s keep = (List.range (s.length + 1), keptIdx keep s 0 ++ [s.length]) := by
  dsimp only [traceOutVectorLists]
  rw [tovLoop_eq keep s 0 [] []]
  simp [List.range_succ, ← List.range_eq_range', Nat.zero_add]

lemma mvLoop_eq (states : List Nat) :
    ∀ (objs : List Nat) (c : Nat) (l0 l1 : List Nat),
      mvLoop states objs c l0 l1 =
        (c + objs.length, l0 ++ List.range' c objs.length, l1 ++ keptIdx states objs c)
  | [], c, l0, l1 => by simp [mvLoop, keptIdx]
  | so :: rest, c, l0, l1 => by
    rw [mvLoop.eq_def]
    by_cases hso : so ∈ states
    · simp only [if_pos hso]
      rw [mvLoop_eq states rest (c + 1) _ _, keptIdx, if_pos hso, List.length_cons,
        List.range'_succ]
      refine Prod.ext (by omega) (Prod.ext ?_ ?_) <;> simp
    · simp only [if_neg hso]
      rw [mvLoop_eq states rest (c + 1) _ _, keptIdx, if_neg hso, List.length_cons,
        List.range'_succ]
      refine Prod.ext (by omega) (Prod.ext ?_ ?_) <;> simp

lemma measureVectorLists_eq (s expose : List Nat) :
    measureVectorLists s expose = (List.range (s.length + 1), keptIdx expose s 0 ++ [s.length]) := by
  dsimp only [measureVectorLists]
  rw [mvLoop_eq expose s 0 [] []]
  simp [List.range_succ, ← List.range_eq_range', Nat.zero_add]

lemma reorderAssign_acc :
    ∀ (objs : List Nat) (c : Nat) (d : Nat → Int) (acc : List Int),
      (reorderAssign objs c d acc).2.2 = acc ++ (List.range' c objs.length).map (fun i : Nat => (i : Int))
  | [], c, d, acc => by simp [reorderAssign]
  | s :: rest, c, d, acc => by
    rw [reorderAssign, reorderAssign_acc rest (c + 1) _ _, List.length_cons, List.range'_succ]
    simp

lemma reorderAssign_dict :
    ∀ (objs : List Nat) (c : Nat) (d : Nat → Int) (acc : List Int) (a : Nat), objs.Nodup →
      ((reorderAssign objs c d acc).2.1) a =
        if a ∈ objs then ((c + objs.indexOf a : Nat) : Int) else d a
  | [], c, d, acc, a, _ => by simp [reorderAssign]
  | s :: rest, c, d, acc, a, hn => by
    rw [reorderAssign, reorderAssign_dict rest (c + 1) _ _ a (List.nodup_cons.mp hn).2]
    by_cases has : a = s
    · subst has
      have : a ∉ rest := (List.nodup_cons.mp hn).1
      simp [this, List.indexOf_cons_self]
    · by_cases har : a ∈ rest
      · have hmem : a ∈ s :: rest := List.mem_cons_of_mem s har
        simp only [if_pos har, if_pos hmem, if_neg has, List.indexOf_cons_ne _ (Ne.symm has)]
        congr 1
        omega
      · have : a ∉ s :: rest := by simp [has, har]
        simp [har, this, has]

lemma reorderVectorLists_eq (s order : List Nat) (hs : s.Nodup) :
    reorderVectorLists s order =
      ((List.range' 1 s.length).map (fun i : Nat => (i : Int)) ++ [(0 : Int)],
        order.map (fun a => if a ∈ s then ((1 + s.indexOf a : Nat) : Int) else -1) ++
          [(0 : Int)]) := by
  dsimp only [reorderVectorLists]
  rw [reorderAssign_acc, List.nil_append]
  refine Prod.ext rfl ?_
  simp only []
  congr 1
  exact List.map_congr_left fun a _ => reorderAssign_dict s 1 _ [] a hs

/-! ## Semantic correctness of the `apply_operator_vector` plan (claim C1) -/

lemma getD_indexOf_self (s : List Nat) (a : Nat) (ha : a ∈ s) : s.getD (s.indexOf a) 0 = a := by
  rw [List.getD_eq_getElem s 0 (List.indexOf_lt_length.mpr ha)]
  exact List.getElem_indexOf _

lemma indexOf_map_of_inj_on (f : Nat → Nat) :
    ∀ (l : List Nat) (a : Nat), a ∈ l → (∀ x ∈ l, f x = f a → x = a) →
      (l.map f).indexOf (f a) = l.indexOf a
  | [], a, ha, _ => absurd ha (List.not_mem_nil a)
  | b :: rest, a, ha, hinj => by
    by_cases hba : b = a
    · subst hba
      simp [List.indexOf_cons_self]
    · have hfba : f b ≠ f a := fun h => hba (hinj b (List.mem_cons_self b rest) h)
      have har : a ∈ rest := by
        rcases List.mem_cons.mp ha with h | h
        · exact absurd h.symm hba
        · exact h
      rw [List.map_cons, List.indexOf_cons_ne _ hfba, List.indexOf_cons_ne _ (Ne.symm ?_),
        indexOf_map_of_inj_on f rest a har
          (fun x hx hfx => hinj x (List.mem_cons_of_mem b hx) hfx)]
      exact fun h => hba h.symm

/-- Definition written from the specification text for `apply_operator_vector`
(the guarantee of claim C1): contracting the operator `T` against the state
`ψ` must yield the state obtained by summing, over one input coordinate per
acted-on slot, the operator entry (output coordinates = the result's
coordinates at the acted-on slots) times the state entry whose acted-on
coordinates are replaced by those input coordinates — with every untouched
slot and the trailing column axis left alone, in the original slot order. -/
def applyOpVecSpec {R : Type} [CommSemiring R] (s ops : List Nat) (dims : Nat → Nat)
    (T ψ : List Nat → R) (kcoord : Nat → Nat) (col : Nat) : R :=
  multiSum (ops.map (fun a => dims (s.indexOf a)))
    (fun js =>
      T (ops.map (fun a => kcoord (s.indexOf a)) ++ js) *
        ψ ((List.range s.length).map
            (fun i =>
              if s.getD i 0 ∈ ops then js.getD (ops.indexOf (s.getD i 0)) 0 else kcoord i) ++
          [col]))

lemma aov_summedVars (s ops : List Nat) (hs : s.Nodup) (hops : ops.Nodup)
    (hsub : ∀ a ∈ ops, a ∈ s) :
    summedVars
      [List.range' (s.length + 1) ops.length ++ ops.map (fun a => s.indexOf a),
        List.range s.length ++ [s.length]]
      (s.map (fun a => if a ∈ ops then s.length + 1 + ops.indexOf a else s.indexOf a) ++
        [s.length]) =
      (List.range s.length).filter (fun i => decide (s.getD i 0 ∈ ops)) := by
  have hsubket : ∀ x ∈ ops.map (fun a => s.indexOf a), x ∈ List.range (s.length + 1) := by
    intro x hx
    rcases List.mem_map.mp hx with ⟨a, ha, rfl⟩
    exact List.mem_range.mpr (Nat.lt_succ_of_lt (List.indexOf_lt_length.mpr (hsub a ha)))
  have hfreshnd : (List.range' (s.length + 1) ops.length).Nodup := List.nodup_range' _ _
  have hdisj : ∀ x ∈ List.range' (s.length + 1) ops.length, x ∉ List.range (s.length + 1) := by
    intro x hx hx2
    have h1 := (List.mem_range'_1.mp hx).1
    have h2 := List.mem_range.mp hx2
    omega
  simp only [summedVars, List.flatten_cons, List.flatten_nil, List.append_nil]
  rw [List.dedup_append, ← List.range_succ, List.Nodup.dedup (List.nodup_range _),
    append_union_assoc, union_eq_self_of_subset _ _ hsubket,
    union_eq_append_of_disjoint _ _ hfreshnd hdisj, List.filter_append]
  have hmem_l2 : ∀ a ∈ ops, (s.length + 1 + ops.indexOf a) ∈
      s.map (fun a => if a ∈ ops then s.length + 1 + ops.indexOf a else s.indexOf a) ++
        [s.length] := by
    intro a ha
    refine List.mem_append.mpr (Or.inl (List.mem_map.mpr ⟨a, hsub a ha, ?_⟩))
    rw [if_pos ha]
  have hfresh_nil : (List.range' (s.length + 1) ops.length).filter
      (fun v => decide (v ∉
        s.map (fun a => if a ∈ ops then s.length + 1 + ops.indexOf a else s.indexOf a) ++
          [s.length])) = [] := by
    refine List.filter_eq_nil_iff.mpr fun x hx => ?_
    rcases List.mem_range'_1.mp hx with ⟨hge, hlt⟩
    have hj : x - (s.length + 1) < ops.length := by omega
    have ha : ops[x - (s.length + 1)] ∈ ops := List.getElem_mem hj
    have hx2 := hmem_l2 _ ha
    have hidx : ops.indexOf (ops[x - (s.length + 1)]) = x - (s.length + 1) :=
      List.indexOf_getElem hops _ hj
    rw [hidx] at hx2
    have hxx : s.length + 1 + (x - (s.length + 1)) = x := by omega
    rw [hxx] at hx2
    simp [hx2]
  rw [hfresh_nil, List.nil_append, List.range_succ, List.filter_append]
  have hlast : List.filter
      (fun v => decide (v ∉
        s.map (fun a => if a ∈ ops then s.length + 1 + ops.indexOf a else s.indexOf a) ++
          [s.length])) [s.length] = [] := by
    refine List.filter_eq_nil_iff.mpr fun x hx => ?_
    have hx' := List.mem_singleton.mp hx
    subst hx'
    simp
  rw [hlast, List.append_nil]
  refine List.filter_congr fun i hi => ?_
  have hi' : i < s.length := List.mem_range.mp hi
  have hgd : s.getD i 0 = s[i] := List.getD_eq_getElem s 0 hi'
  rw [decide_eq_decide]
  constructor
  · intro hnot
    by_contra hno
    apply hnot
    refine List.mem_append.mpr (Or.inl (List.mem_map.mpr ⟨s[i], List.getElem_mem hi', ?_⟩))
    rw [hgd] at hno
    rw [if_neg hno]
    exact List.indexOf_getElem hs i hi'
  · intro hops_mem him
    rcases List.mem_append.mp him with hmap | hsing
    · rcases List.mem_map.mp hmap with ⟨a, has, hga⟩
      by_cases hao : a ∈ ops
      · rw [if_pos hao] at hga
        omega
      · rw [if_neg hao] at hga
        apply hao
        have h1 : s.indexOf a < s.length := List.indexOf_lt_length.mpr has
        subst hga
        rw [hgd, List.getElem_indexOf h1] at hops_mem
        exact hops_mem
    · have : i = s.length := List.mem_singleton.mp hsing
      omega

lemma aov_actedPos_perm (s ops : List Nat) (hs : s.Nodup) (hops : ops.Nodup)
    (hsub : ∀ a ∈ ops, a ∈ s) :
    ((List.range s.length).filter (fun i => decide (s.getD i 0 ∈ ops))).Perm
      (ops.map (fun a => s.indexOf a)) := by
  apply List.perm_of_nodup_nodup_toFinset_eq
  · exact (List.nodup_range _).filter _
  · exact List.Nodup.map_on
      (fun x hx y hy h => (List.indexOf_inj (hsub x hx) (hsub y hy)).mp h) hops
  · ext x
    simp only [List.mem_toFinset, List.mem_filter, List.mem_range, List.mem_map,
      decide_eq_true_eq]
    constructor
    · rintro ⟨hx, hmem⟩
      rw [List.getD_eq_getElem s 0 hx] at hmem
      exact ⟨s[x], hmem, List.indexOf_getElem hs x hx⟩
    · rintro ⟨a, ha, rfl⟩
      have hlt : s.indexOf a < s.length := List.indexOf_lt_length.mpr (hsub a ha)
      refine ⟨hlt, ?_⟩
      rw [List.getD_eq_getElem s 0 hlt, List.getElem_indexOf hlt]
      exact ha

/-- C1: for every ordered list of subsystem slots and every subset of slots an
operator acts on (distinct slots, the acted-on ones among them), the plan
produced by `apply_operator_vector` assigns one fresh index per slot for the
state's ket legs (`0 … n-1`) plus one trailing column index (`n`); its result
index list equals the ket index of each untouched slot and the operator's
output index of each acted-on slot, in the original slot order, followed by
the trailing column index; the output axes carry the same dimensions as the
state axes, in the same order; and contracting the operator against the
state with this plan (einsum semantics) yields the new state described by
`applyOpVecSpec` — the operator contracted into the acted-on slots, same
slot ordering, dimensions unchanged. -/
theorem apply_operator_vector_plan_correct {R : Type} [CommSemiring R]
    (s ops : List Nat) (dims : Nat → Nat) (hs : s.Nodup) (hops : ops.Nodup)
    (hsub : ∀ a ∈ ops, a ∈ s)
    (hdim : ∀ a ∈ ops, dims (s.length + 1 + ops.indexOf a) = dims (s.indexOf a)) :
    (applyOperatorVectorLists s ops).2.1 = List.range s.length ++ [s.length] ∧
      (applyOperatorVectorLists s ops).1 =
        List.range' (s.length + 1) ops.length ++ ops.map (fun a => s.indexOf a) ∧
      (applyOperatorVectorLists s ops).2.2 =
        s.map (fun a => if a ∈ ops then s.length + 1 + ops.indexOf a else s.indexOf a) ++
          [s.length] ∧
      (applyOperatorVectorLists s ops).2.2.map dims =
        (applyOperatorVectorLists s ops).2.1.map dims ∧
      ∀ (T ψ : List Nat → R) (env : Nat → Nat),
        einsumEval dims
            [((applyOperatorVectorLists s ops).1, T),
              ((applyOperatorVectorLists s ops).2.1, ψ)]
            (applyOperatorVectorLists s ops).2.2 env =
          applyOpVecSpec s ops dims T ψ
            (fun i =>
              env (if s.getD i 0 ∈ ops then s.length + 1 + ops.indexOf (s.getD i 0) else i))
            (env s.length) := by
  refine ⟨aov_state_indices s ops, aov_operator_indices s ops hs hops hsub,
    aov_result_indices s ops hs hops, ?_, ?_⟩
  · rw [aov_result_indices s ops hs hops, aov_state_indices s ops, List.map_append,
      List.map_append]
    congr 1
    refine List.ext_getElem (by simp) fun i h1 h2 => ?_
    have hi' : i < s.length := by simpa using h1
    simp only [List.getElem_map, List.getElem_range]
    by_cases hio : s[i] ∈ ops
    · rw [if_pos hio, hdim _ hio, List.indexOf_getElem hs i hi']
    · rw [if_neg hio, List.indexOf_getElem hs i hi']
  · intro T ψ env
    have hkets_nd : (ops.map (fun a => s.indexOf a)).Nodup :=
      List.Nodup.map_on
        (fun x hx y hy h => (List.indexOf_inj (hsub x hx) (hsub y hy)).mp h) hops
    have hket_lt : ∀ x ∈ ops.map (fun a => s.indexOf a), x < s.length := by
      intro x hx
      rcases List.mem_map.mp hx with ⟨a, ha, rfl⟩
      exact List.indexOf_lt_length.mpr (hsub a ha)
    simp only [einsumEval, List.map_cons, List.map_nil, List.prod_cons, List.prod_nil, mul_one,
      aov_operator_indices s ops hs hops hsub, aov_state_indices s ops,
      aov_result_indices s ops hs hops]
    rw [aov_summedVars s ops hs hops hsub,
      sumOver_perm dims (aov_actedPos_perm s ops hs hops hsub),
      sumOver_eq_multiSum]
    simp only [applyOpVecSpec]
    have hdl : (ops.map (fun a => s.indexOf a)).map dims =
        ops.map (fun a => dims (s.indexOf a)) := by
      rw [List.map_map]
      rfl
    rw [hdl]
    refine multiSum_congr _ _ _ fun js hjs => ?_
    have hjs' : js.length = (ops.map (fun a => s.indexOf a)).length := by
      simpa using hjs
    congr 1
    · congr 1
      rw [List.map_append]
      congr 1
      · rw [map_updList_of_disjoint _ _ _ _ (fun i hi hmem => by
          have h1 := (List.mem_range'_1.mp hi).1
          have h2 := hket_lt i hmem
          omega)]
        refine List.ext_getElem (by simp) fun j h1 h2 => ?_
        have hj : j < ops.length := by simpa using h2
        have hmem : ops[j] ∈ ops := List.getElem_mem hj
        simp only [List.getElem_map, List.getElem_range'_1]
        rw [getD_indexOf_self s (ops[j]) (hsub _ hmem), if_pos hmem,
          List.indexOf_getElem hops j hj]
      · exact map_updList_self _ _ _ hkets_nd hjs'
    · congr 1
      rw [List.map_append]
      congr 1
      · refine List.map_congr_left fun i hi => ?_
        have hi' : i < s.length := List.mem_range.mp hi
        have hgd : s.getD i 0 = s[i] := List.getD_eq_getElem s 0 hi'
        by_cases hio : s.getD i 0 ∈ ops
        · rw [if_pos hio]
          have hio' : s[i] ∈ ops := by rwa [hgd] at hio
          have himem : i ∈ ops.map (fun a => s.indexOf a) :=
            List.mem_map.mpr ⟨s[i], hio', List.indexOf_getElem hs i hi'⟩
          rw [updList_apply_mem _ _ _ _ hkets_nd hjs' himem]
          congr 1
          rw [hgd]
          have hkey := indexOf_map_of_inj_on (fun a => s.indexOf a) ops (s[i]) hio'
            (fun x hx hfx => (List.indexOf_inj (hsub x hx) (hsub _ hio')).mp hfx)
          simpa [List.indexOf_getElem hs i hi'] using hkey
        · rw [if_neg hio]
          have hnmem : i ∉ ops.map (fun a => s.indexOf a) := by
            intro hmem
            rcases List.mem_map.mp hmem with ⟨a, ha, hfa⟩
            apply hio
            rw [← hfa, getD_indexOf_self s a (hsub a ha)]
            exact ha
          rw [updList_apply_of_not_mem _ _ _ _ hnmem]
          rw [if_neg hio]
      · have hnm : s.length ∉ ops.map (fun a => s.indexOf a) := fun h => by
          have := hket_lt _ h
          omega
        simp only [List.map_cons, List.map_nil]
        rw [updList_apply_of_not_mem _ _ _ _ hnm]

/-- Witness for C1: slots `[5, 7]`, operator acting on `[7]`, every index
dimension `2`, scalars in `ℚ`. -/
theorem apply_operator_vector_plan_correct_witness :
    ([5, 7] : List Nat).Nodup ∧ ([7] : List Nat).Nodup ∧
      (∀ a ∈ ([7] : List Nat), a ∈ ([5, 7] : List Nat)) ∧
      (∀ a ∈ ([7] : List Nat), (2 : Nat) = 2) ∧
      ((applyOperatorVectorLists [5, 7] [7]).2.1 = [0, 1, 2] ∧
        (applyOperatorVectorLists [5, 7] [7]).1 = [3, 1] ∧
        (applyOperatorVectorLists [5, 7] [7]).2.2 = [0, 3, 2] ∧
        (applyOperatorVectorLists [5, 7] [7]).2.2.map (fun _ : Nat => 2) =
          (applyOperatorVectorLists [5, 7] [7]).2.1.map (fun _ : Nat => 2) ∧
        ∀ (T ψ : List Nat → ℚ) (env : Nat → Nat),
          einsumEval (fun _ => 2)
              [((applyOperatorVectorLists [5, 7] [7]).1, T),
                ((applyOperatorVectorLists [5, 7] [7]).2.1, ψ)]
              (applyOperatorVectorLists [5, 7] [7]).2.2 env =
            applyOpVecSpec [5, 7] [7] (fun _ => 2) T ψ
              (fun i =>
                env (if ([5, 7] : List Nat).getD i 0 ∈ ([7] : List Nat) then
                  3 + ([7] : List Nat).indexOf (([5, 7] : List Nat).getD i 0) else i))
              (env 2)) :=
  ⟨by decide, by decide, by decide, fun a _ => rfl,
    apply_operator_vector_plan_correct (R := ℚ) [5, 7] [7] (fun _ => 2) (by decide) (by decide)
      (by decide) (fun a _ => rfl)⟩

/-! ## Semantics of the `trace_out_vector` plan (claim C2) -/

lemma keptIdx_zero (keep s : List Nat) :
    keptIdx keep s 0 = (List.range s.length).filter (fun i => decide (s.getD i 0 ∈ keep)) := by
  rw [keptIdx_eq_filter]
  simp

lemma tov_summedVars (s keep : List Nat) :
    summedVars [List.range (s.length + 1)]
      ((List.range s.length).filter (fun i => decide (s.getD i 0 ∈ keep)) ++ [s.length]) =
      (List.range s.length).filter (fun i => decide (s.getD i 0 ∉ keep)) := by
  simp only [summedVars, List.flatten_cons, List.flatten_nil, List.append_nil]
  rw [List.Nodup.dedup (List.nodup_range _), List.range_succ, List.filter_append]
  have hlast : List.filter
      (fun v => decide (v ∉
        (List.range s.length).filter (fun i => decide (s.getD i 0 ∈ keep)) ++ [s.length]))
      [s.length] = [] := by
    refine List.filter_eq_nil_iff.mpr fun x hx => ?_
    have hx' := List.mem_singleton.mp hx
    subst hx'
    simp
  rw [hlast, List.append_nil]
  refine List.filter_congr fun i hi => ?_
  have hi' : i < s.length := List.mem_range.mp hi
  rw [decide_eq_decide]
  constructor
  · intro hnot hin
    exact hnot (List.mem_append.mpr (Or.inl (List.mem_filter.mpr ⟨hi, by simpa using hin⟩)))
  · intro hnk him
    rcases List.mem_append.mp him with hf | hsing
    · exact hnk (by simpa using (List.mem_filter.mp hf).2)
    · have := List.mem_singleton.mp hsing
      omega

/-- Definition written from the amended claim C2: applying the
`trace_out_vector` plan sums the state's amplitudes (not squared
magnitudes) over the dropped slots' coordinates, with every kept slot's
coordinate and the trailing column coordinate left alone. -/
def traceOutVecSumSpec {R : Type} [CommSemiring R] (s keep : List Nat) (dims : Nat → Nat)
    (ψ : List Nat → R) (kcoord : Nat → Nat) (col : Nat) : R :=
  multiSum (((List.range s.length).filter (fun i => decide (s.getD i 0 ∉ keep))).map dims)
    (fun js =>
      ψ ((List.range s.length).map
          (fun i =>
            if s.getD i 0 ∉ keep then
              js.getD
                (((List.range s.length).filter
                  (fun i => decide (s.getD i 0 ∉ keep))).indexOf i) 0
            else kcoord i) ++ [col]))

/-- Definition written from the claim C2 text as stated: applying the plan
would sum the squared magnitudes (the 2-norm contributions, here over real
rational amplitudes) of the state over the dropped legs, yielding the
reduced description of the kept slots. -/
def traceOutVecNormSpec (s keep : List Nat) (dims : Nat → Nat)
    (ψ : List Nat → ℤ) (kcoord : Nat → Nat) (col : Nat) : ℤ :=
  multiSum (((List.range s.length).filter (fun i => decide (s.getD i 0 ∉ keep))).map dims)
    (fun js =>
      ψ ((List.range s.length).map
          (fun i =>
            if s.getD i 0 ∉ keep then
              js.getD
                (((List.range s.length).filter
                  (fun i => decide (s.getD i 0 ∉ keep))).indexOf i) 0
            else kcoord i) ++ [col]) ^ 2)

/-- The state `|0⟩⊗|0⟩ − |1⟩⊗|0⟩` (unnormalised), as the 3-axis column
array of a two-slot product space with the trailing column axis. -/
def psiC2 : List Nat → ℤ :=
  fun l => match l with
  | [0, 0, 0] => 1
  | [1, 0, 0] => -1
  | _ => 0

/-- Counterexample to C2 as stated: the `trace_out_vector` plan does not
collapse the dropped legs to a single shared index (for slots `[0,1,2]`
keeping `[2]`, the two dropped slots get the distinct operand indices `0`
and `1`), and applying the plan sums amplitudes, not the 2-norm: on
`psiC2` (keeping slot `1` of `[0,1]`) the plan yields `0` at the origin
while the claimed 2-norm reduction yields `2`. -/
theorem trace_out_vector_claim_counterexample :
    (traceOutVectorLists [0, 1, 2] [2]).1.getD 0 99 ≠
        (traceOutVectorLists [0, 1, 2] [2]).1.getD 1 99 ∧
      einsumEval (fun _ => 2) [((traceOutVectorLists [0, 1] [1]).1, psiC2)]
          (traceOutVectorLists [0, 1] [1]).2 (fun _ => 0) = 0 ∧
      traceOutVecNormSpec [0, 1] [1] (fun _ => 2) psiC2 (fun _ => 0) 0 = 2 ∧
      (0 : ℤ) ≠ 2 :=
  ⟨by decide, by decide, by decide, by decide⟩

/-- C2 (amended): the plan built by `trace_out_vector` lists one fresh index
per slot plus the trailing column index as its operand indices; its output
keeps the kept slots' indices (paired with the operand's) in slot order plus
the column index; each dropped slot's leg gets its own index — the dropped
indices are pairwise distinct and absent from the output — and applying the
plan sums the state's amplitudes over the dropped legs (`traceOutVecSumSpec`),
not the 2-norm. -/
theorem trace_out_vector_plan_amended {R : Type} [CommSemiring R] (s keep : List Nat)
    (dims : Nat → Nat) :
    (traceOutVectorLists s keep).1 = List.range (s.length + 1) ∧
      (traceOutVectorLists s keep).2 =
        (List.range s.length).filter (fun i => decide (s.getD i 0 ∈ keep)) ++ [s.length] ∧
      ((List.range s.length).filter (fun i => decide (s.getD i 0 ∉ keep))).Nodup ∧
      (∀ i ∈ (List.range s.length).filter (fun i => decide (s.getD i 0 ∉ keep)),
        i ∉ (traceOutVectorLists s keep).2) ∧
      ∀ (ψ : List Nat → R) (env : Nat → Nat),
        einsumEval dims [((traceOutVectorLists s keep).1, ψ)]
            (traceOutVectorLists s keep).2 env =
          traceOutVecSumSpec s keep dims ψ env (env s.length) := by
  have hplan := traceOutVectorLists_eq s keep
  have hout : (traceOutVectorLists s keep).2 =
      (List.range s.length).filter (fun i => decide (s.getD i 0 ∈ keep)) ++ [s.length] := by
    rw [hplan, keptIdx_zero]
  have hdnd : ((List.range s.length).filter (fun i => decide (s.getD i 0 ∉ keep))).Nodup :=
    (List.nodup_range _).filter _
  have hdmem : ∀ i, i ∈ (List.range s.length).filter (fun i => decide (s.getD i 0 ∉ keep)) ↔
      i < s.length ∧ s.getD i 0 ∉ keep := by
    intro i
    simp [List.mem_filter]
  refine ⟨by rw [hplan], hout, hdnd, ?_, ?_⟩
  · intro i hi
    rcases (hdmem i).mp hi with ⟨hi1, hi2⟩
    rw [hout]
    intro hmem
    rcases List.mem_append.mp hmem with hf | hsing
    · exact hi2 (by simpa using (List.mem_filter.mp hf).2)
    · have := List.mem_singleton.mp hsing
      omega
  · intro ψ env
    simp only [einsumEval, List.map_cons, List.map_nil, List.prod_cons, List.prod_nil, mul_one,
      hout, hplan, keptIdx_zero]
    rw [tov_summedVars, sumOver_eq_multiSum]
    simp only [traceOutVecSumSpec]
    refine multiSum_congr _ _ _ fun js hjs => ?_
    have hjs' : js.length =
        ((List.range s.length).filter (fun i => decide (s.getD i 0 ∉ keep))).length := by
      simpa using hjs
    congr 1
    rw [List.range_succ, List.map_append]
    congr 1
    · refine List.map_congr_left fun i hi => ?_
      have hi' : i < s.length := List.mem_range.mp hi
      by_cases hio : s.getD i 0 ∉ keep
      · rw [if_pos hio]
        exact updList_apply_mem _ _ _ _ hdnd hjs' ((hdmem i).mpr ⟨hi', hio⟩)
      · rw [if_neg hio]
        refine updList_apply_of_not_mem _ _ _ _ fun hmem => ?_
        exact hio ((hdmem i).mp hmem).2
    · simp only [List.map_cons, List.map_nil]
      refine congrArg (fun x => [x]) (updList_apply_of_not_mem _ _ _ _ fun hmem => ?_)
      have := ((hdmem _).mp hmem).1
      omega

/-! ## The `trace_out_matrix` plan is not a genuine partial trace (claim C3) -/

/-- Definition written from the specification text for `trace_out_matrix`
(claim C3): the genuine partial trace.  For each dropped slot an independent
summation coordinate is shared between that slot's row leg and its column
leg; kept slots keep free row and column coordinates. -/
def partialTraceSpec {R : Type} [CommSemiring R] (s keep : List Nat) (dims : Nat → Nat)
    (ρ : List Nat → R) (rowc colc : Nat → Nat) : R :=
  multiSum (((List.range s.length).filter (fun i => decide (s.getD i 0 ∉ keep))).map dims)
    (fun js =>
      ρ ((List.range s.length).map
          (fun i =>
            if s.getD i 0 ∉ keep then
              js.getD
                (((List.range s.length).filter
                  (fun i => decide (s.getD i 0 ∉ keep))).indexOf i) 0
            else rowc i) ++
        (List.range s.length).map
          (fun i =>
            if s.getD i 0 ∉ keep then
              js.getD
                (((List.range s.length).filter
                  (fun i => decide (s.getD i 0 ∉ keep))).indexOf i) 0
            else colc i)))

/-- The identity array on a three-qubit product space, viewed with six axes
(three row legs then three column legs): entry `1` exactly on the diagonal. -/
def rhoC3 : List Nat → ℤ :=
  fun l => match l with
  | [a, b, c, d, e, f] => if a = d ∧ b = e ∧ c = f then 1 else 0
  | _ => 0

/-- C3 (code bug): for three slots of dimension 2 keeping only the third,
`trace_out_matrix` assigns the one shared index `0` to the row and column
legs of BOTH dropped slots (plan `aacaad->cd`, index lists
`([0,0,1,0,0,2],[1,2])`), so applying it to the identity density array
yields `2` on the diagonal of the result, whereas the genuine partial trace
over the two dropped slots — what the docstring and the specification
describe — yields `4`. -/
theorem trace_out_matrix_diagonal_not_partial_trace :
    traceOutMatrixLists [0, 1, 2] [2] = ([0, 0, 1, 0, 0, 2], [1, 2]) ∧
      einsumEval (fun _ => 2) [((traceOutMatrixLists [0, 1, 2] [2]).1, rhoC3)]
          (traceOutMatrixLists [0, 1, 2] [2]).2 (fun _ => 0) = 2 ∧
      partialTraceSpec [0, 1, 2] [2] (fun _ => 2) rhoC3 (fun _ => 0) (fun _ => 0) = 4 ∧
      (2 : ℤ) ≠ 4 :=
  ⟨by decide, by decide, by decide, by decide⟩

/-! ## The trailing column axis is preserved by every vector plan (claim C10) -/

/-- C10: each vector-form plan generator (`apply_operator_vector`,
`trace_out_vector`, `reorder_vector`, `measure_vector`) assigns one extra
index for the trailing column axis of the stored `(n,1)` column array —
`s.length` for the counters starting at the state loop, `0` for
`reorder_vector` which draws it first — places it last in the operand index
list and last in the result index list, and that index occurs nowhere else:
it is never traced out, contracted (for `apply_operator_vector` it does not
occur in the operator's index list), or moved from the last position. -/
theorem vector_plans_preserve_column_axis (s ops keep order expose : List Nat)
    (hs : s.Nodup) (hops : ops.Nodup) (hsub : ∀ a ∈ ops, a ∈ s)
    (horder : ∀ a ∈ order, a ∈ s) :
    ((applyOperatorVectorLists s ops).2.1.getLast? = some s.length ∧
      s.length ∉ (applyOperatorVectorLists s ops).2.1.dropLast ∧
      (applyOperatorVectorLists s ops).2.2.getLast? = some s.length ∧
      s.length ∉ (applyOperatorVectorLists s ops).2.2.dropLast ∧
      s.length ∉ (applyOperatorVectorLists s ops).1) ∧
    ((traceOutVectorLists s keep).1.getLast? = some s.length ∧
      s.length ∉ (traceOutVectorLists s keep).1.dropLast ∧
      (traceOutVectorLists s keep).2.getLast? = some s.length ∧
      s.length ∉ (traceOutVectorLists s keep).2.dropLast) ∧
    ((reorderVectorLists s order).1.getLast? = some 0 ∧
      (0 : Int) ∉ (reorderVectorLists s order).1.dropLast ∧
      (reorderVectorLists s order).2.getLast? = some 0 ∧
      (0 : Int) ∉ (reorderVectorLists s order).2.dropLast) ∧
    ((measureVectorLists s expose).1.getLast? = some s.length ∧
      s.length ∉ (measureVectorLists s expose).1.dropLast ∧
      (measureVectorLists s expose).2.getLast? = some s.length ∧
      s.length ∉ (measureVectorLists s expose).2.dropLast) := by
  have hkept : ∀ (sub : List Nat) (x : Nat),
      x ∈ (List.range s.length).filter (fun i => decide (s.getD i 0 ∈ sub)) → x < s.length := by
    intro sub x hx
    exact List.mem_range.mp (List.mem_filter.mp hx).1
  refine ⟨?_, ?_, ?_, ?_⟩
  · rw [aov_state_indices s ops, aov_result_indices s ops hs hops,
      aov_operator_indices s ops hs hops hsub]
    refine ⟨List.getLast?_concat _, ?_, List.getLast?_concat _, ?_, ?_⟩
    · rw [List.dropLast_concat]
      intro h
      exact absurd (List.mem_range.mp h) (lt_irrefl _)
    · rw [List.dropLast_concat]
      intro h
      rcases List.mem_map.mp h with ⟨a, ha, hv⟩
      by_cases hao : a ∈ ops
      · rw [if_pos hao] at hv
        omega
      · rw [if_neg hao] at hv
        have := List.indexOf_lt_length.mpr ha
        omega
    · intro h
      rcases List.mem_append.mp h with h1 | h2
      · have := (List.mem_range'_1.mp h1).1
        omega
      · rcases List.mem_map.mp h2 with ⟨a, ha, hv⟩
        have := List.indexOf_lt_length.mpr (hsub a ha)
        omega
  · rw [traceOutVectorLists_eq, keptIdx_zero]
    refine ⟨?_, ?_, List.getLast?_concat _, ?_⟩
    · rw [List.range_succ]
      exact List.getLast?_concat _
    · rw [List.range_succ, List.dropLast_concat]
      intro h
      exact absurd (List.mem_range.mp h) (lt_irrefl _)
    · rw [List.dropLast_concat]
      intro h
      exact absurd (hkept keep _ h) (lt_irrefl _)
  · rw [reorderVectorLists_eq s order hs]
    refine ⟨List.getLast?_concat _, ?_, List.getLast?_concat _, ?_⟩
    · rw [List.dropLast_concat]
      intro h
      rcases List.mem_map.mp h with ⟨a, ha, hv⟩
      have := (List.mem_range'_1.mp ha).1
      omega
    · rw [List.dropLast_concat]
      intro h
      rcases List.mem_map.mp h with ⟨a, ha, hv⟩
      rw [if_pos (horder a ha)] at hv
      omega
  · rw [measureVectorLists_eq, keptIdx_zero]
    refine ⟨?_, ?_, List.getLast?_concat _, ?_⟩
    · rw [List.range_succ]
      exact List.getLast?_concat _
    · rw [List.range_succ, List.dropLast_concat]
      intro h
      exact absurd (List.mem_range.mp h) (lt_irrefl _)
    · rw [List.dropLast_concat]
      intro h
      exact absurd (hkept expose _ h) (lt_irrefl _)

/-- Witness for C10 at slots `[4, 5, 6]` with operator subset `[5]`, keep
subset `[6]`, new order `[6, 4, 5]`, exposed subset `[4, 6]`. -/
theorem vector_plans_preserve_column_axis_witness :
    ([4, 5, 6] : List Nat).Nodup ∧ ([5] : List Nat).Nodup ∧
      (∀ a ∈ ([5] : List Nat), a ∈ ([4, 5, 6] : List Nat)) ∧
      (∀ a ∈ ([6, 4, 5] : List Nat), a ∈ ([4, 5, 6] : List Nat)) ∧
      (((applyOperatorVectorLists [4, 5, 6] [5]).2.1.getLast? = some 3 ∧
          (3 : Nat) ∉ (applyOperatorVectorLists [4, 5, 6] [5]).2.1.dropLast ∧
          (applyOperatorVectorLists [4, 5, 6] [5]).2.2.getLast? = some 3 ∧
          (3 : Nat) ∉ (applyOperatorVectorLists [4, 5, 6] [5]).2.2.dropLast ∧
          (3 : Nat) ∉ (applyOperatorVectorLists [4, 5, 6] [5]).1) ∧
        ((traceOutVectorLists [4, 5, 6] [6]).1.getLast? = some 3 ∧
          (3 : Nat) ∉ (traceOutVectorLists [4, 5, 6] [6]).1.dropLast ∧
          (traceOutVectorLists [4, 5, 6] [6]).2.getLast? = some 3 ∧
          (3 : Nat) ∉ (traceOutVectorLists [4, 5, 6] [6]).2.dropLast) ∧
        ((reorderVectorLists [4, 5, 6] [6, 4, 5]).1.getLast? = some 0 ∧
          (0 : Int) ∉ (reorderVectorLists [4, 5, 6] [6, 4, 5]).1.dropLast ∧
          (reorderVectorLists [4, 5, 6] [6, 4, 5]).2.getLast? = some 0 ∧
          (0 : Int) ∉ (reorderVectorLists [4, 5, 6] [6, 4, 5]).2.dropLast) ∧
        ((measureVectorLists [4, 5, 6] [4, 6]).1.getLast? = some 3 ∧
          (3 : Nat) ∉ (measureVectorLists [4, 5, 6] [4, 6]).1.dropLast ∧
          (measureVectorLists [4, 5, 6] [4, 6]).2.getLast? = some 3 ∧
          (3 : Nat) ∉ (measureVectorLists [4, 5, 6] [4, 6]).2.dropLast)) :=
  ⟨by decide, by decide, by decide, by decide,
    vector_plans_preserve_column_axis [4, 5, 6] [5] [6] [6, 4, 5] [4, 6]
      (by decide) (by decide) (by decide) (by decide)⟩

/-! ## Expansion levels, subsystem states and the Kraus path
(`state/expansion_levels.py`, `state/base_state.py`)

A subsystem (`BaseState`) keeps its Python slots `_expansion_level`,
`label`, `_state_vector`, `density_matrix` and `_measured`; exactly which
data field is populated depends on the expansion level.  Scalars are left
generic (a commutative star-ring) where the source logic is
scalar-independent; the eigendecomposition-based contraction below is over
`ℂ`. -/

/-- The `ExpansionLevel` enum: `Label < Vector < Matrix`. -/
inductive ExpansionLevel
  | label
  | vector
  | matrix
deriving DecidableEq, Repr

/-- Numeric value of an expansion level (the Python `IntEnum` values
`0, 1, 2`). -/
def ExpansionLevel.toNat : ExpansionLevel → Nat
  | .label => 0
  | .vector => 1
  | .matrix => 2

instance : LT ExpansionLevel :=
  ⟨fun a b => a.toNat < b.toNat⟩

instance (a b : ExpansionLevel) : Decidable (a < b) :=
  inferInstanceAs (Decidable (a.toNat < b.toNat))

/-- The error conditions surfaced by the embedded operations: Python
exceptions (`EnvelopeAlreadyMeasuredException`, `ValueError`) and failed
`assert` statements. -/
inductive PwError
  | alreadyMeasured
  | assertionFailed
  | dimensionMismatch
  | invalidKraus
  | probabilityAssertion
deriving DecidableEq, Repr

/-- A subsystem state holder (`BaseState.__slots__`): the expansion level,
the three optional representation fields, and the terminal `measured`
flag. -/
structure BState (R : Type) (d : Nat) where
  expansionLevel : ExpansionLevel
  label : Option Nat
  stateVector : Option (Fin d → R)
  densityMatrix : Option (Matrix (Fin d) (Fin d) R)
  measured : Bool

/-- Modelled from the spec: `expand()` is abstract in `base_state.py` and its
implementations (`fock.py`, `polarization.py`) are not under `src/`.
Spec §4.2: Label→Vector builds a unit basis vector of length `dimension`
with a `1` at `label`; Vector→Matrix builds the outer product
`vector · vector†`; expanding at Matrix level is a fatal precondition
violation.  Spec §3/§7: a measured Subsystem rejects further operations. -/
def BState.expand {R : Type} [CommRing R] [StarRing R] {d : Nat} (st : BState R d) :
    BState R d × Option PwError :=
  if st.measured then (st, some .alreadyMeasured)
  else
    match st.expansionLevel, st.label, st.stateVector with
    | .label, some l, _ =>
      ({ st with
          expansionLevel := .vector
          label := none
          stateVector := some (fun i => if (i : Nat) = l then 1 else 0) }, none)
    | .vector, _, some v =>
      ({ st with
          expansionLevel := .matrix
          stateVector := none
          densityMatrix := some (Matrix.of (fun i j => v i * star (v j))) }, none)
    | _, _, _ => (st, some .assertionFailed)

/-- The loop `while self.expansion_level < ExpansionLevel.Matrix:
self.expand()` opening `BaseState.apply_kraus`: the strictly ordered levels
make at most two iterations possible, and a raised error aborts the loop
with the mutations so far retained. -/
def BState.expandToMatrix {R : Type} [CommRing R] [StarRing R] {d : Nat} (st : BState R d) :
    BState R d × Option PwError :=
  if st.expansionLevel < .matrix then
    match st.expand with
    | (st1, some e) => (st1, some e)
    | (st1, none) =>
      if st1.expansionLevel < .matrix then st1.expand else (st1, none)
  else (st, none)

/-- Modelled from the spec: `kraus_identity_check` (imported from
`photon_weave._math.ops`) is not under `src/`.  Per §7 and the glossary the
Kraus set must satisfy the completeness condition — the sum of `Kᵢ†Kᵢ` over
the set equals the identity. -/
def kraus_identity_check {R : Type} [CommRing R] [StarRing R] {d : Nat}
    (operators : List (Matrix (Fin d) (Fin d) R)) : Prop :=
  (operators.map (fun K => K.conjTranspose * K)).sum = 1

instance {R : Type} [CommRing R] [StarRing R] [DecidableEq R] {d : Nat}
    (operators : List (Matrix (Fin d) (Fin d) R)) :
    Decidable (kraus_identity_check operators) :=
  inferInstanceAs (Decidable (_ = _))

/-- Modelled from the spec: the Kraus application kernel `apply_kraus` from
`photon_weave._math.ops` is not under `src/`; per the glossary a Kraus
channel maps `ρ` to the sum of `Kᵢ ρ Kᵢ†`. -/
def apply_kraus_map {R : Type} [CommRing R] [StarRing R] {d : Nat}
    (ρ : Matrix (Fin d) (Fin d) R) (operators : List (Matrix (Fin d) (Fin d) R)) :
    Matrix (Fin d) (Fin d) R :=
  (operators.map (fun K => K * ρ * K.conjTranspose)).sum

/-- `BaseState.apply_kraus` (`base_state.py` lines 113-138): first the
expansion loop runs (mutating the object in place), then operator shapes
are checked (`(dims, dims)` — guaranteed here by typing), then the Kraus
completeness check runs, and only then is the channel applied; finally the
state is contracted when the global configuration enables contractions
(`contractF` stands for `self.contract`, `contractions` for
`Config().contractions`).  An error outcome carries the state as already
mutated when the exception was raised. -/
def BState.applyKraus {R : Type} [CommRing R] [StarRing R] [DecidableEq R] {d : Nat}
    (contractF : BState R d → BState R d) (contractions : Bool) (st : BState R d)
    (operators : List (Matrix (Fin d) (Fin d) R)) : BState R d × Option PwError :=
  match st.expandToMatrix with
  | (st1, some e) => (st1, some e)
  | (st1, none) =>
    if kraus_identity_check operators then
      match st1.densityMatrix with
      | some ρ =>
        let st2 := { st1 with densityMatrix := some (apply_kraus_map ρ operators) }
        (if contractions then contractF st2 else st2, none)
      | none => (st1, some .assertionFailed)
    else (st1, some .invalidKraus)

/-- A dimension-2 subsystem at Vector level holding the basis state `(1,0)`
over `ℤ`. -/
def stVecC6 : BState ℤ 2 where
  expansionLevel := .vector
  label := none
  stateVector := some ![1, 0]
  densityMatrix := none
  measured := false

/-- Counterexample to C6 as stated: for the Vector-level state `stVecC6` and
the non-complete Kraus set `[2·I]`, `apply_kraus` does raise the
completeness error, but only after the expansion loop has already mutated
the subsystem: the state carried at the raise is at Matrix level with an
outer-product density matrix, its expansion level and representation data
are NOT exactly as they were before the call. -/
theorem apply_kraus_counterexample :
    ¬ kraus_identity_check [(2 : Matrix (Fin 2) (Fin 2) ℤ)] ∧
      (stVecC6.applyKraus id false [(2 : Matrix (Fin 2) (Fin 2) ℤ)]).2 = some .invalidKraus ∧
      (stVecC6.applyKraus id false [(2 : Matrix (Fin 2) (Fin 2) ℤ)]).1.expansionLevel =
        .matrix ∧
      stVecC6.expansionLevel = .vector ∧
      (stVecC6.applyKraus id false [(2 : Matrix (Fin 2) (Fin 2) ℤ)]).1.stateVector = none ∧
      stVecC6.stateVector ≠ none :=
  ⟨by decide, by decide, by decide, by decide, by decide, by decide⟩

/-- C6 (amended): when the Kraus operators fail the completeness check,
`apply_kraus` raises before applying the Kraus map — the density matrix
present at check time is unmodified and no channel application or
contraction occurs — but the expansion to Matrix level performed first
persists; a subsystem already at Matrix level is left exactly as it was
before the call. -/
theorem apply_kraus_rejects_before_kraus_mutation {R : Type} [CommRing R] [StarRing R]
    [DecidableEq R] {d : Nat} (contractF : BState R d → BState R d) (contractions : Bool)
    (st st1 : BState R d) (operators : List (Matrix (Fin d) (Fin d) R))
    (hcheck : ¬ kraus_identity_check operators) (hexp : st.expandToMatrix = (st1, none)) :
    st.applyKraus contractF contractions operators = (st1, some .invalidKraus) ∧
      (st.expansionLevel = .matrix → st1 = st) := by
  constructor
  · rw [BState.applyKraus, hexp]
    simp [hcheck]
  · intro hm
    have : st.expandToMatrix = (st, none) := by
      rw [BState.expandToMatrix, if_neg]
      rw [hm]
      decide
    rw [this] at hexp
    exact (Prod.mk.injEq _ _ _ _ ▸ hexp).1.symm

/-- A dimension-2 subsystem already at Matrix level holding the identity
matrix over `ℤ` (unnormalised; only the mutation behaviour matters). -/
def stMatC6 : BState ℤ 2 where
  expansionLevel := .matrix
  label := none
  stateVector := none
  densityMatrix := some 1
  measured := false

/-- Witness for C6 (amended) at a Matrix-level dimension-2 subsystem over
`ℤ` with the non-complete Kraus set `[2·I]`. -/
theorem apply_kraus_rejects_before_kraus_mutation_witness :
    (¬ kraus_identity_check [(2 : Matrix (Fin 2) (Fin 2) ℤ)]) ∧
      stMatC6.expandToMatrix = (stMatC6, none) ∧
      (stMatC6.applyKraus id false [(2 : Matrix (Fin 2) (Fin 2) ℤ)] =
          (stMatC6, some .invalidKraus) ∧
        (stMatC6.expansionLevel = .matrix → stMatC6 = stMatC6)) :=
  ⟨by decide, rfl,
    apply_kraus_rejects_before_kraus_mutation id false stMatC6 stMatC6
      [(2 : Matrix (Fin 2) (Fin 2) ℤ)] (by decide) rfl⟩

/-! ## Contraction (`BaseState.contract`, `base_state.py` lines 153-187)

The eigendecomposition `jnp.linalg.eigh` is an external numeric kernel; it
enters the embedding as an oracle argument `eigh` returning the ascending
eigenvalues and the matrix whose columns are the eigenvectors.  The state
dimension is written `d + 1` because the code reads entry `0` of the
selected eigenvector. -/

/-- The index `jnp.argmax(jnp.abs(eigenvalues - 1.0) < tol)`: `argmax` of a
boolean array returns the first `True` position, or `0` when none is. -/
noncomputable def firstEigIdx {d : Nat} (vals : Fin (d + 1) → ℝ) (tol : ℝ) : Fin (d + 1) :=
  match (List.finRange (d + 1)).find? (fun i => decide (|vals i - 1| < tol)) with
  | some i => i
  | none => ⟨0, Nat.succ_pos d⟩

/-- The first `if` of `BaseState.contract`: at Matrix level with a target
below Matrix, check purity `|Tr(ρ·ρ) - 1| < tol`; on success select the
first eigenvector whose eigenvalue is within `tol` of `1`, multiply it by
the phase `exp(-i·angle(v[0]))`, store it as the state vector and discard
the matrix; on failure leave the state unchanged.  A missing density matrix
fails the `assert`. -/
noncomputable def contractMatrixStep {d : Nat}
    (eigh : Matrix (Fin (d + 1)) (Fin (d + 1)) ℂ → (Fin (d + 1) → ℝ) × Matrix (Fin (d + 1)) (Fin (d + 1)) ℂ)
    (st : BState ℂ (d + 1)) (final : ExpansionLevel) (tol : ℝ) :
    BState ℂ (d + 1) × Option PwError :=
  if st.expansionLevel = .matrix ∧ final < .matrix then
    match st.densityMatrix with
    | none => (st, some .assertionFailed)
    | some ρ =>
      if Complex.abs ((ρ * ρ).trace - 1) < tol then
        let ev := eigh ρ
        let idx := firstEigIdx ev.1 tol
        let v : Fin (d + 1) → ℂ := fun i => ev.2 i idx
        let phase := Complex.exp (-(Complex.I * (Complex.arg (v ⟨0, Nat.succ_pos d⟩) : ℂ)))
        ({ st with
            expansionLevel := .vector
            stateVector := some (fun i => v i * phase)
            densityMatrix := none }, none)
      else (st, none)
  else (st, none)

/-- The second `if` of `BaseState.contract`: at Vector level with target
Label, if the vector has exactly one entry equal to `1`
(`jnp.where(self.state_vector == 1)`), store that index as the label and
discard the vector; otherwise leave the state unchanged.  A missing state
vector fails the `assert`. -/
noncomputable def contractVectorStep {d : Nat} (st : BState ℂ (d + 1))
    (final : ExpansionLevel) : BState ℂ (d + 1) × Option PwError :=
  if st.expansionLevel = .vector ∧ final < .vector then
    match st.stateVector with
    | none => (st, some .assertionFailed)
    | some v =>
      let ones := (List.finRange (d + 1)).filter (fun i => decide (v i = 1))
      if ones.length = 1 then
        ({ st with
            expansionLevel := .label
            label := some ((ones.headD ⟨0, Nat.succ_pos d⟩) : Fin (d + 1)).val
            stateVector := none }, none)
      else (st, none)
  else (st, none)

/-- `BaseState.contract` (`base_state.py` lines 153-187): the Matrix→Vector
`if` runs first, then — unless an `assert` aborted — the Vector→Label `if`
runs on the (possibly already contracted) state. -/
noncomputable def BState.contract {d : Nat}
    (eigh : Matrix (Fin (d + 1)) (Fin (d + 1)) ℂ → (Fin (d + 1) → ℝ) × Matrix (Fin (d + 1)) (Fin (d + 1)) ℂ)
    (st : BState ℂ (d + 1)) (final : ExpansionLevel) (tol : ℝ) :
    BState ℂ (d + 1) × Option PwError :=
  match contractMatrixStep eigh st final tol with
  | (st1, some e) => (st1, some e)
  | (st1, none) => contractVectorStep st1 final

/-- The pure density matrix `|1⟩⟨1|` on a dimension-2 space. -/
def rhoC4 : Matrix (Fin 2) (Fin 2) ℂ := !![0, 0; 0, 1]

/-- A valid eigendecomposition oracle output for `rhoC4`: ascending
eigenvalues `(0, 1)` with orthonormal eigenvector columns `(1,0)` and
`(0,-1)` — eigenvectors are only determined up to phase, and this sign
choice is legitimate for `jnp.linalg.eigh`. -/
noncomputable def eighC4 :
    Matrix (Fin 2) (Fin 2) ℂ → (Fin 2 → ℝ) × Matrix (Fin 2) (Fin 2) ℂ :=
  fun _ => (![0, 1], !![1, 0; 0, -1])

/-- A Matrix-level subsystem holding the pure state `rhoC4`. -/
def stMatC4 : BState ℂ 2 where
  expansionLevel := .matrix
  label := none
  stateVector := none
  densityMatrix := some rhoC4
  measured := false

/-- Definition written from the claim C4 text: the vector's first nonzero
amplitude is real and positive. -/
def firstNonzeroRealPos {d : Nat} (v : Fin d → ℂ) : Prop :=
  ∃ i, v i ≠ 0 ∧ (∀ j, j < i → v j = 0) ∧ 0 < (v i).re ∧ (v i).im = 0

lemma hpurC4 : Complex.abs ((rhoC4 * rhoC4).trace - 1) < (1/2 : ℝ) := by
  have h1 : (rhoC4 * rhoC4).trace = 1 := by
    simp [rhoC4, Matrix.trace_fin_two, Matrix.mul_apply, Fin.sum_univ_two]
  rw [h1]
  simp

lemma hidxC4 : firstEigIdx (d := 1) ![0, 1] (1/2) = 1 := by
  rw [firstEigIdx]
  have hfr : List.finRange 2 = [0, 1] := by decide
  rw [hfr]
  rw [List.find?_cons_of_neg, List.find?_cons_of_pos]
  · simp only [Matrix.cons_val_one, Matrix.head_cons, decide_eq_true_eq]
    norm_num
  · simp only [Matrix.cons_val_zero, decide_eq_false_iff_not]
    norm_num

lemma hstepC4 : contractMatrixStep eighC4 stMatC4 .vector (1/2) =
    ({ expansionLevel := .vector
       label := none
       stateVector := some ![0, -1]
       densityMatrix := none
       measured := false }, none) := by
  rw [contractMatrixStep]
  rw [if_pos ⟨rfl, by decide⟩]
  show (if Complex.abs ((rhoC4 * rhoC4).trace - 1) < (1/2 : ℝ) then _ else _) = _
  rw [if_pos hpurC4]
  simp only [eighC4, hidxC4]
  refine Prod.ext ?_ rfl
  simp only []
  congr 1
  refine congrArg some ?_
  funext i
  fin_cases i <;>
    simp [Fin.mk_zero, Complex.arg_zero, Complex.ofReal_zero, mul_zero, neg_zero,
      Complex.exp_zero]



lemma mul_exp_neg_arg (z : ℂ) :
    z * Complex.exp (-(Complex.I * (z.arg : ℂ))) = (Complex.abs z : ℂ) := by
  have h := Complex.abs_mul_exp_arg_mul_I z
  calc z * Complex.exp (-(Complex.I * (z.arg : ℂ)))
      = ((Complex.abs z : ℂ) * Complex.exp ((z.arg : ℂ) * Complex.I)) *
        Complex.exp (-(Complex.I * (z.arg : ℂ))) := by rw [h]
    _ = (Complex.abs z : ℂ) *
        Complex.exp ((z.arg : ℂ) * Complex.I + -(Complex.I * (z.arg : ℂ))) := by
        rw [mul_assoc, Complex.exp_add]
    _ = (Complex.abs z : ℂ) := by
        rw [mul_comm Complex.I ((z.arg : ℂ)), add_neg_cancel, Complex.exp_zero, mul_one]

/-- Counterexample to C4 as stated: on the pure matrix `rhoC4 = |1⟩⟨1|`
(purity check passes with tolerance `1/2`) with the legitimate
eigendecomposition `eighC4` (the first two conjuncts verify its columns are
genuine eigenvectors), `contract` to Vector level stores the vector
`(0, -1)`: the code's phase fix uses `angle(v[0]) = angle(0) = 0` and
rotates by `1`, so the first NONZERO amplitude `-1` is not made real and
positive, contradicting the claim. -/
theorem contract_phase_counterexample :
    rhoC4.mulVec ![1, 0] = 0 ∧
      rhoC4.mulVec ![0, -1] = ![0, -1] ∧
      Complex.abs ((rhoC4 * rhoC4).trace - 1) < (1/2 : ℝ) ∧
      (BState.contract eighC4 stMatC4 .vector (1/2)).1.expansionLevel = .vector ∧
      (BState.contract eighC4 stMatC4 .vector (1/2)).1.densityMatrix = none ∧
      (BState.contract eighC4 stMatC4 .vector (1/2)).1.stateVector = some ![0, -1] ∧
      ¬ firstNonzeroRealPos (![0, -1] : Fin 2 → ℂ) := by
  have hc : BState.contract eighC4 stMatC4 .vector (1/2) =
      ({ expansionLevel := .vector
         label := none
         stateVector := some ![0, -1]
         densityMatrix := none
         measured := false }, none) := by
    rw [BState.contract, hstepC4]
    simp only [contractVectorStep]
    rw [if_neg (fun h => (by decide : ¬ ExpansionLevel.vector < .vector) h.2)]
  refine ⟨?_, ?_, hpurC4, by rw [hc], by rw [hc], by rw [hc], ?_⟩
  · funext i
    fin_cases i <;> simp [rhoC4, Matrix.mulVec, Matrix.dotProduct, Fin.sum_univ_two]
  · funext i
    fin_cases i <;> simp [rhoC4, Matrix.mulVec, Matrix.dotProduct, Fin.sum_univ_two]
  · rintro ⟨i, hne, hfirst, hpos, him⟩
    fin_cases i
    · exact hne (by simp)
    · simp at hpos
      norm_num at hpos



/-- C4 (amended): for every Matrix-level subsystem and target below Matrix,
`contract` checks `|Tr(ρ·ρ) - 1| < tol`; if the check fails the state is
returned unchanged (representation remains Matrix) regardless of the
target.  On success it selects the first eigenvector whose eigenvalue is
within `tol` of `1` (for a numerically pure matrix, the one closest to 1),
multiplies it by `exp(-i·angle(v[0]))` — making the FIRST amplitude (index
0) equal to `|v[0]|`, hence real and nonnegative; the first nonzero
amplitude is canonicalised only when it is the index-0 amplitude — discards
the matrix and moves to Vector level, after which only the Vector→Label
step may further fire (it does not when the target is Vector). -/
theorem contract_matrix_to_vector_amended {d : Nat}
    (eigh : Matrix (Fin (d + 1)) (Fin (d + 1)) ℂ →
      (Fin (d + 1) → ℝ) × Matrix (Fin (d + 1)) (Fin (d + 1)) ℂ)
    (st : BState ℂ (d + 1)) (final : ExpansionLevel) (tol : ℝ)
    (ρ : Matrix (Fin (d + 1)) (Fin (d + 1)) ℂ)
    (hlvl : st.expansionLevel = .matrix) (hrho : st.densityMatrix = some ρ)
    (hfin : final < .matrix) :
    (¬ Complex.abs ((ρ * ρ).trace - 1) < tol →
        BState.contract eigh st final tol = (st, none)) ∧
      (Complex.abs ((ρ * ρ).trace - 1) < tol →
        contractMatrixStep eigh st final tol =
          ({ st with
              expansionLevel := .vector
              stateVector := some (fun i =>
                (eigh ρ).2 i (firstEigIdx (eigh ρ).1 tol) *
                  Complex.exp (-(Complex.I *
                    ((Complex.arg
                      ((eigh ρ).2 ⟨0, Nat.succ_pos d⟩ (firstEigIdx (eigh ρ).1 tol))) : ℂ))))
              densityMatrix := none }, none) ∧
          ((fun i =>
              (eigh ρ).2 i (firstEigIdx (eigh ρ).1 tol) *
                Complex.exp (-(Complex.I *
                  ((Complex.arg
                    ((eigh ρ).2 ⟨0, Nat.succ_pos d⟩ (firstEigIdx (eigh ρ).1 tol))) : ℂ))))
            ⟨0, Nat.succ_pos d⟩ =
            (Complex.abs ((eigh ρ).2 ⟨0, Nat.succ_pos d⟩ (firstEigIdx (eigh ρ).1 tol)) : ℂ)) ∧
          BState.contract eigh st final tol =
            contractVectorStep (contractMatrixStep eigh st final tol).1 final ∧
          (final = .vector →
            BState.contract eigh st final tol =
              ({ st with
                  expansionLevel := .vector
                  stateVector := some (fun i =>
                    (eigh ρ).2 i (firstEigIdx (eigh ρ).1 tol) *
                      Complex.exp (-(Complex.I *
                        ((Complex.arg
                          ((eigh ρ).2 ⟨0, Nat.succ_pos d⟩
                            (firstEigIdx (eigh ρ).1 tol))) : ℂ))))
                  densityMatrix := none }, none))) := by
  have hfail_case : ∀ _ : ¬ Complex.abs ((ρ * ρ).trace - 1) < tol,
      contractMatrixStep eigh st final tol = (st, none) := by
    intro hnp
    simp only [contractMatrixStep, hrho]
    rw [if_pos ⟨hlvl, hfin⟩, if_neg hnp]
  have hpure_case : ∀ _ : Complex.abs ((ρ * ρ).trace - 1) < tol,
      contractMatrixStep eigh st final tol =
        ({ st with
            expansionLevel := .vector
            stateVector := some (fun i =>
              (eigh ρ).2 i (firstEigIdx (eigh ρ).1 tol) *
                Complex.exp (-(Complex.I *
                  ((Complex.arg
                    ((eigh ρ).2 ⟨0, Nat.succ_pos d⟩ (firstEigIdx (eigh ρ).1 tol))) : ℂ))))
            densityMatrix := none }, none) := by
    intro hp
    simp only [contractMatrixStep, hrho]
    rw [if_pos ⟨hlvl, hfin⟩, if_pos hp]
  constructor
  · intro hnp
    have h1 := hfail_case hnp
    simp only [BState.contract, h1]
    simp only [contractVectorStep]
    rw [if_neg (fun hco => by rw [hlvl] at hco; exact absurd hco.1 (by decide))]
  · intro hp
    have h2 := hpure_case hp
    refine ⟨h2, mul_exp_neg_arg _, ?_, ?_⟩
    · simp only [BState.contract, h2]
    · intro hfv
      subst hfv
      simp only [BState.contract, h2]
      simp only [contractVectorStep]
      rw [if_neg (fun hco => (by decide : ¬ ExpansionLevel.vector < .vector) hco.2)]



/-- Witness for C4 (amended) at the pure state `rhoC4` with the
eigendecomposition oracle `eighC4`, target Vector, tolerance `1/2`. -/
theorem contract_matrix_to_vector_amended_witness :
    stMatC4.expansionLevel = .matrix ∧ stMatC4.densityMatrix = some rhoC4 ∧
      ExpansionLevel.vector < .matrix ∧
      ((¬ Complex.abs ((rhoC4 * rhoC4).trace - 1) < (1/2 : ℝ) →
          BState.contract eighC4 stMatC4 .vector (1/2) = (stMatC4, none)) ∧
        (Complex.abs ((rhoC4 * rhoC4).trace - 1) < (1/2 : ℝ) →
          contractMatrixStep eighC4 stMatC4 .vector (1/2) =
            ({ stMatC4 with
                expansionLevel := .vector
                stateVector := some (fun i =>
                  (eighC4 rhoC4).2 i (firstEigIdx (eighC4 rhoC4).1 (1/2)) *
                    Complex.exp (-(Complex.I *
                      ((Complex.arg
                        ((eighC4 rhoC4).2 ⟨0, Nat.succ_pos 1⟩
                          (firstEigIdx (eighC4 rhoC4).1 (1/2)))) : ℂ))))
                densityMatrix := none }, none) ∧
            ((fun i =>
                (eighC4 rhoC4).2 i (firstEigIdx (eighC4 rhoC4).1 (1/2)) *
                  Complex.exp (-(Complex.I *
                    ((Complex.arg
                      ((eighC4 rhoC4).2 ⟨0, Nat.succ_pos 1⟩
                        (firstEigIdx (eighC4 rhoC4).1 (1/2)))) : ℂ))))
              ⟨0, Nat.succ_pos 1⟩ =
              (Complex.abs
                ((eighC4 rhoC4).2 ⟨0, Nat.succ_pos 1⟩
                  (firstEigIdx (eighC4 rhoC4).1 (1/2))) : ℂ)) ∧
            BState.contract eighC4 stMatC4 .vector (1/2) =
              contractVectorStep (contractMatrixStep eighC4 stMatC4 .vector (1/2)).1
                .vector ∧
            (ExpansionLevel.vector = .vector →
              BState.contract eighC4 stMatC4 .vector (1/2) =
                ({ stMatC4 with
                    expansionLevel := .vector
                    stateVector := some (fun i =>
                      (eighC4 rhoC4).2 i (firstEigIdx (eighC4 rhoC4).1 (1/2)) *
                        Complex.exp (-(Complex.I *
                          ((Complex.arg
                            ((eighC4 rhoC4).2 ⟨0, Nat.succ_pos 1⟩
                              (firstEigIdx (eighC4 rhoC4).1 (1/2)))) : ℂ))))
                    densityMatrix := none }, none)))) :=
  ⟨rfl, rfl, by decide,
    contract_matrix_to_vector_amended eighC4 stMatC4 .vector (1/2) rhoC4 rfl rfl (by decide)⟩

/-! ## Adaptive dimension estimation
(`operation/helpers/fock_dimension_esitmation.py`)

The vector branch of `_compute_dimensions` is embedded with real-dtype
amplitudes idealised as rationals; the external operator kernel
(`compute_operator` followed by `jnp.dot`) enters as the function `res`
giving the resulting state at each trial dimension. -/

/-- The cumulative-probability scan of `FockDimensions._compute_dimensions`
(vector branch): accumulate `abs(resulting_state[i][0])**2`; at the first
index where the cumulative mass reaches the threshold return `i + 3`;
return `-1` when it is never reached. -/
def cdfScan (θ : ℚ) : ℚ → Nat → List ℚ → Int
  | _, _, [] => -1
  | cdf, i, x :: xs =>
    if cdf + x ^ 2 ≥ θ then (i : Int) + 3 else cdfScan θ (cdf + x ^ 2) (i + 1) xs

/-- `FockDimensions._compute_dimensions` (vector branch): reject (`-1`) when
the last amplitude exceeds `(1 - threshold) * 1e-3`, otherwise scan the
cumulative mass. -/
def computeDimAtV (θ : ℚ) (ψ : List ℚ) : Int :=
  if ψ.getLastD 0 > (1 - θ) * (1 / 1000) then -1 else cdfScan θ 0 0 ψ

/-- The `while True` loop of `FockDimensions.compute_dimensions`, with fuel:
each iteration evaluates `_compute_dimensions` at the current trial
dimension `d` and returns its value when positive, otherwise grows the
dimension by 5 (`self._increase_dimensions(5)`) and retries. -/
def fockLoop (θ : ℚ) (res : Nat → List ℚ) : Nat → Nat → Option Int
  | 0, _ => none
  | fuel + 1, d =>
    if computeDimAtV θ (res d) > 0 then some (computeDimAtV θ (res d))
    else fockLoop θ res fuel (d + 5)

lemma getLastD_replicate_zero : ∀ d : Nat, (List.replicate d (0 : ℚ)).getLastD 0 = 0
  | 0 => rfl
  | d + 1 => by
    rw [List.replicate_succ, List.getLastD_cons, getLastD_replicate_zero d]

lemma cdfScan_replicate_zero :
    ∀ (d : Nat) (c : ℚ) (i : Nat), ¬ c ≥ (1/2 : ℚ) →
      cdfScan (1/2) c i (List.replicate d 0) = -1
  | 0, c, i, _ => rfl
  | d + 1, c, i, h => by
    rw [List.replicate_succ, cdfScan]
    have h0 : c + (0 : ℚ) ^ 2 = c := by ring
    rw [h0, if_neg h]
    exact cdfScan_replicate_zero d c (i + 1) h

/-- Counterexample to C5 as stated: for the zero resulting state (the zero
input vector — which `_increase_dimensions` pads to zero at every trial
dimension and any linear operator maps to zero — or any state under the
zero operator) the cumulative probability is monotonically non-decreasing
and bounded by 1, yet with threshold `1/2` every trial returns `-1` and the
dimension-growth loop never terminates. -/
theorem fock_loop_counterexample :
    ¬ ∃ (fuel : Nat) (n : Int),
      fockLoop (1/2) (fun d => List.replicate d 0) fuel 5 = some n := by
  have hc : ∀ d : Nat, computeDimAtV (1/2) (List.replicate d 0) = -1 := by
    intro d
    rw [computeDimAtV, getLastD_replicate_zero d, if_neg (by norm_num)]
    exact cdfScan_replicate_zero d 0 0 (by norm_num)
  have hloop : ∀ fuel d, fockLoop (1/2) (fun d => List.replicate d 0) fuel d = none := by
    intro fuel
    induction fuel with
    | zero => intro d; rfl
    | succ k ih =>
      intro d
      rw [fockLoop, hc d, if_neg (by norm_num)]
      exact ih (d + 5)
  rintro ⟨fuel, n, h⟩
  rw [hloop fuel 5] at h
  exact Option.noConfusion h

/-- C5 (amended): the dimension-growth loop terminates exactly when some
trial dimension passes the check — if the compute step returns a positive
value at trial dimension `d0 + 5·k`, the loop started at `d0` (with fuel
`k + 1`) terminates and returns a positive truncation dimension.  Monotone
bounded cumulative probability alone does not force termination (see the
counterexample: the zero state loops forever). -/
theorem fock_loop_terminates (θ : ℚ) (res : Nat → List ℚ) (k d0 : Nat)
    (hpass : 0 < computeDimAtV θ (res (d0 + 5 * k))) :
    ∃ n : Int, fockLoop θ res (k + 1) d0 = some n ∧ 0 < n := by
  induction k generalizing d0 with
  | zero =>
    have h0 : 0 < computeDimAtV θ (res d0) := by simpa using hpass
    exact ⟨computeDimAtV θ (res d0), by rw [fockLoop, if_pos h0], h0⟩
  | succ k ih =>
    by_cases h0 : computeDimAtV θ (res d0) > 0
    · exact ⟨computeDimAtV θ (res d0), by rw [fockLoop, if_pos h0], h0⟩
    · have heq : d0 + 5 * (k + 1) = (d0 + 5) + 5 * k := by ring
      rw [heq] at hpass
      obtain ⟨n, hn, hn0⟩ := ih (d0 + 5) hpass
      exact ⟨n, by rw [fockLoop, if_neg h0]; exact hn, hn0⟩

/-- Witness for C5 (amended): threshold `1/2`, resulting state `[1, 0]` at
every trial dimension, starting dimension `5`, passing at `k = 0`. -/
theorem fock_loop_terminates_witness :
    0 < computeDimAtV (1/2) ((fun _ : Nat => [(1 : ℚ), 0]) (5 + 5 * 0)) ∧
      ∃ n : Int, fockLoop (1/2) (fun _ => [(1 : ℚ), 0]) (0 + 1) 5 = some n ∧ 0 < n :=
  ⟨by norm_num [computeDimAtV, cdfScan],
    fock_loop_terminates (1/2) (fun _ => [(1 : ℚ), 0]) 0 5
      (by norm_num [computeDimAtV, cdfScan])⟩

/-! ## Configuration and random streams (`photon_weave.py`)

`jax.random.PRNGKey`, `jax.random.split`, `jax.random.choice` and numpy's
global-generator `np.random.choice` are external kernels; they enter the
embedding as the opaque function fields of `ExternalRNG`.  Keys and the
numpy generator state are abstract naturals. -/

structure ExternalRNG where
  prngKey : Int → Nat
  split : Nat → Nat × Nat
  jaxChoice : Nat → List ℚ → Nat
  npChoice : Nat → List ℚ → Nat × Nat

/-- The `Config` singleton's random state: `_random_seed` and the jax key
`_key`. -/
structure PwConfig where
  randomSeed : Int
  key : Nat

/-- `Config.set_seed`: store the seed and reset the jax key to
`PRNGKey(seed)`.  The numpy global generator is NOT touched. -/
def setSeed (ext : ExternalRNG) (seed : Int) : PwConfig :=
  { randomSeed := seed, key := ext.prngKey seed }

/-- `Config.random_key`: `key, self._key = jax.random.split(self._key)` —
split the stored key, return the first fragment and store the second. -/
def randomKey (ext : ExternalRNG) (cfg : PwConfig) : Nat × PwConfig :=
  let p := ext.split cfg.key
  (p.1, { cfg with key := p.2 })

/-- Process-wide mutable state relevant to sampling: the `Config` singleton
and the numpy global generator state. -/
structure ProcState where
  cfg : PwConfig
  npState : Nat

/-- The sampling step of `BaseState.measure_POVM` (`base_state.py`
lines 232-241): draw a fresh key with `Config.random_key` (split-then-use)
and sample via `jax.random.choice(key, ..., p=probabilities)`. -/
def povmSample (ext : ExternalRNG) (pr : ProcState) (probs : List ℚ) : Nat × ProcState :=
  let kp := randomKey ext pr.cfg
  (ext.jaxChoice kp.1 probs, { pr with cfg := kp.2 })

/-- The sampling step of `Envelope.measure` (`envelope.py` line 225):
`np.random.choice(axis, p=probabilities)` draws from the process-global
numpy generator — advancing `npState` only; the `Config` key is neither
consumed nor advanced. -/
def envMeasureSample (ext : ExternalRNG) (pr : ProcState) (probs : List ℚ) : Nat × ProcState :=
  let o := ext.npChoice pr.npState probs
  (o.1, { pr with npState := o.2 })

/-- The outcome probabilities of `Envelope.measure` on a composite vector
with `fock.index = 0` (`envelope.py` lines 214-219): reshape to
`(fock_dim, 2)` and sum the squared amplitude magnitudes over the
polarization axis (real amplitudes idealised as rationals). -/
def envMeasureProbs (nf : Nat) (ψ : Fin nf → Fin 2 → ℚ) : List ℚ :=
  (List.finRange nf).map (fun i => ∑ j, (ψ i j) ^ 2)

/-- The composite-vector branch of `Envelope.measure`: compute the
probabilities, `assert np.isclose(sum, 1)` (idealised to exact equality),
then sample the outcome with `np.random.choice`. -/
def envelopeMeasureVec (ext : ExternalRNG) (pr : ProcState) (nf : Nat)
    (ψ : Fin nf → Fin 2 → ℚ) : Except PwError Nat × ProcState :=
  let probs := envMeasureProbs nf ψ
  if probs.sum = 1 then
    let o := envMeasureSample ext pr probs
    (.ok o.1, o.2)
  else (.error .probabilityAssertion, pr)

/-- A concrete instantiation of the external random kernels, exhibiting that
the code's behaviour is compatible with outcomes that depend on the numpy
global state. -/
def ext0 : ExternalRNG where
  prngKey := fun s => s.natAbs
  split := fun k => (k, k + 1)
  jaxChoice := fun k _ => k % 2
  npChoice := fun st _ => (st % 2, st + 1)

/-- The composite vector `|0⟩⊗|H⟩` as a `(2,2)`-reshaped array. -/
def psiC8 : Fin 2 → Fin 2 → ℚ := fun i j => if i = 0 ∧ j = 0 then 1 else 0

/-- Run 1: `set_seed(42)` in a process whose numpy generator is in state 0. -/
def prC8a : ProcState := { cfg := setSeed ext0 42, npState := 0 }

/-- Run 2: `set_seed(42)` in a process whose numpy generator is in state 1. -/
def prC8b : ProcState := { cfg := setSeed ext0 42, npState := 1 }

/-- C8 (code bug): after `set_seed(42)` the two runs hold identical `Config`
key state, and `measure_POVM`'s jax sampling (split-then-use on the injected
stream) indeed reproduces identically; but `Envelope.measure` samples with
`np.random.choice` from the numpy global generator, which `set_seed` never
seeds, so the two runs' measured outcomes differ (`0` vs `1`) — the sampled
outcomes are not reproduced bit-for-bit by the seed, contradicting the
claim for `Envelope.measure`. -/
theorem envelope_measure_sampling_ignores_seed :
    prC8a.cfg = prC8b.cfg ∧
      (povmSample ext0 prC8a [1, 0]).1 = (povmSample ext0 prC8b [1, 0]).1 ∧
      (envelopeMeasureVec ext0 prC8a 2 psiC8).1 = .ok 0 ∧
      (envelopeMeasureVec ext0 prC8b 2 psiC8).1 = .ok 1 ∧
      (envelopeMeasureVec ext0 prC8a 2 psiC8).1 ≠ (envelopeMeasureVec ext0 prC8b 2 psiC8).1 ∧
      (envMeasureSample ext0 prC8a [1, 0]).2.cfg = prC8a.cfg := by
  have hprobs : envMeasureProbs 2 psiC8 = [1, 0] := by
    have hfr : List.finRange 2 = [0, 1] := by decide
    rw [envMeasureProbs, hfr]
    simp only [List.map_cons, List.map_nil, Fin.sum_univ_two, psiC8]
    norm_num
  have hsum : (envMeasureProbs 2 psiC8).sum = 1 := by rw [hprobs]; norm_num
  have ha : (envelopeMeasureVec ext0 prC8a 2 psiC8).1 = .ok 0 := by
    rw [envelopeMeasureVec]
    simp only [hsum]
    rw [if_pos trivial]
    rfl
  have hb : (envelopeMeasureVec ext0 prC8b 2 psiC8).1 = .ok 1 := by
    rw [envelopeMeasureVec]
    simp only [hsum]
    rw [if_pos trivial]
    rfl
  refine ⟨rfl, rfl, ha, hb, ?_, rfl⟩
  rw [ha, hb]
  simp

/-! ## Envelope (`state/envelope.py`)

The fock and polarization subsystems, the optional composite arrays and the
measured flag.  Composite arrays are indexed by `Fin df × Fin 2` (fock axis
first, the order produced by `combine` via `np.kron`). -/

section EnvelopeModel

open Kronecker

/-- Frobenius norm: `np.linalg.norm` of a matrix. -/
noncomputable def frobNorm {n : Type} [Fintype n] (m : Matrix n n ℂ) : ℝ :=
  Real.sqrt (∑ i, ∑ j, Complex.normSq (m i j))

/-- The composite-vector update of `Envelope.apply_operation` (`envelope.py`
lines 175-179): multiply by the padded operator, then — when the operation
is flagged renormalizing — divide by the vector 2-norm. -/
noncomputable def applyOperationVectorBranch {n : Type} [Fintype n]
    (U : Matrix n n ℂ) (v : n → ℂ) (renorm : Bool) : n → ℂ :=
  let v1 := U.mulVec v
  if renorm then ((Real.sqrt (∑ x, Complex.normSq (v1 x)) : ℝ) : ℂ)⁻¹ • v1 else v1

/-- The composite-matrix update of `Envelope.apply_operation` (`envelope.py`
lines 180-186): `U ρ U†`, then — when renormalizing — divide by
`np.linalg.norm(matrix)`, which is the FROBENIUS norm of the matrix, not
its trace. -/
noncomputable def applyOperationMatrixBranch {n : Type} [Fintype n]
    (U ρ : Matrix n n ℂ) (renorm : Bool) : Matrix n n ℂ :=
  let ρ1 := U * ρ * U.conjTranspose
  if renorm then ((frobNorm ρ1 : ℝ) : ℂ)⁻¹ • ρ1 else ρ1

/-- The `Envelope` fields: subsystems, optional composite arrays, measured
flag.  The composite-envelope pointer is outside this model
(`composite_envelope.py` is not among the covered sources). -/
structure EnvelopeM (df : Nat) where
  fock : BState ℂ df
  polarization : BState ℂ 2
  compositeVector : Option (Fin df × Fin 2 → ℂ)
  compositeMatrix : Option (Matrix (Fin df × Fin 2) (Fin df × Fin 2) ℂ)
  measured : Bool

/-- Modelled from the spec: `Fock._set_measured` and
`Polarization._set_measured` are not under `src/`; per spec §3 a measured
Subsystem is terminal and holds no representation data. -/
def setMeasuredSub {R : Type} {d : Nat} (s : BState R d) : BState R d :=
  { s with
      measured := true
      label := none
      stateVector := none
      densityMatrix := none }

/-- `Envelope._set_measured` (`envelope.py` lines 246-254): set the
terminal flag, drop both composite arrays and mark both subsystems
measured (removal from a composite envelope is outside this model). -/
def envSetMeasured {df : Nat} (removeComposite : Bool) (e : EnvelopeM df) : EnvelopeM df :=
  let _ := removeComposite
  { e with
      measured := true
      compositeVector := none
      compositeMatrix := none
      fock := setMeasuredSub e.fock
      polarization := setMeasuredSub e.polarization }

/-- Modelled from the spec: `Fock.apply_operation` and
`Polarization.apply_operation` (the uncombined branch of
`Envelope.apply_operation`) are not under `src/`; per spec §3/§7 a measured
Subsystem rejects further operations (`AlreadyMeasured`); the operator
application on a live subsystem is the abstract `impl`. -/
def subApplyOperation {R : Type} {d : Nat} (impl : BState R d → BState R d)
    (s : BState R d) : BState R d × Option PwError :=
  if s.measured then (s, some .alreadyMeasured) else (impl s, none)

/-- `Envelope.apply_operation` for a Fock operation (`envelope.py`
lines 160-186): with no composite array delegate to the fock subsystem;
with a composite array apply the identity-padded Kronecker operator `U`
(`np.kron` of the fock operator and the polarization identity, in slot
order) to whichever composite form is present. -/
noncomputable def envApplyOperationFock {df : Nat}
    (subApply : BState ℂ df → BState ℂ df × Option PwError)
    (U : Matrix (Fin df × Fin 2) (Fin df × Fin 2) ℂ) (renorm : Bool) (e : EnvelopeM df) :
    EnvelopeM df × Option PwError :=
  match e.compositeVector, e.compositeMatrix with
  | none, none =>
    let r := subApply e.fock
    ({ e with fock := r.1 }, r.2)
  | ov, om =>
    ({ e with
        compositeVector := ov.map (fun v => applyOperationVectorBranch U v renorm)
        compositeMatrix := om.map (fun ρ => applyOperationMatrixBranch U ρ renorm) }, none)

/-- `Envelope.measure` (`envelope.py` lines 206-244): reject a measured
envelope first; on a composite vector compute the marginal fock
probabilities (reshape, square magnitudes, sum over the polarization axis),
assert they sum to 1 (`np.isclose` idealised to exact equality), then
sample with `np.random.choice` from the numpy global state `npState`; on a
composite matrix use the absolute diagonal of the partial trace over the
polarization axes; otherwise delegate to `fock.measure` (`fock.py` is not
under `src/`, so the delegate is the abstract `fockMeasure`); finally,
unless non-destructive, `_set_measured` runs.  The composite-envelope
branch (`fock.index` a pair) is outside this model. -/
noncomputable def envelopeMeasure {df : Nat}
    (npChoiceR : Nat → List ℝ → Nat × Nat)
    (fockMeasure : Bool → BState ℂ df → Except PwError Nat × BState ℂ df)
    (e : EnvelopeM df) (npState : Nat) (nonDestructive removeComposite : Bool) :
    Except PwError Nat × EnvelopeM df × Nat :=
  if e.measured then (.error .alreadyMeasured, e, npState)
  else
    match e.compositeVector with
    | some ψ =>
      let probs := (List.finRange df).map (fun i => ∑ j : Fin 2, Complex.normSq (ψ (i, j)))
      if probs.sum = 1 then
        let o := npChoiceR npState probs
        (.ok o.1, (if nonDestructive then e else envSetMeasured removeComposite e), o.2)
      else (.error .probabilityAssertion, e, npState)
    | none =>
      match e.compositeMatrix with
      | some ρ =>
        let probs := (List.finRange df).map (fun i => Complex.abs (∑ j : Fin 2, ρ (i, j) (i, j)))
        let o := npChoiceR npState probs
        (.ok o.1, (if nonDestructive then e else envSetMeasured removeComposite e), o.2)
      | none =>
        let r := fockMeasure nonDestructive e.fock
        match r.1 with
        | .error err => (.error err, { e with fock := r.2 }, npState)
        | .ok out =>
          (.ok out,
            (if nonDestructive then { e with fock := r.2 }
              else envSetMeasured removeComposite { e with fock := r.2 }), npState)

end EnvelopeModel

/-- A measured, cleared fock subsystem as `_set_measured` leaves it (the
expansion level slot still reads Vector, the data fields are empty). -/
def stMeasC9 : BState ℂ 2 where
  expansionLevel := .vector
  label := none
  stateVector := none
  densityMatrix := none
  measured := true

/-- Counterexample to C9 as stated: `BaseState.contract` (in `src/`) has no
measured-check and never raises `AlreadyMeasured` — on a measured, cleared
subsystem the Vector→Label branch hits the missing-representation `assert`
(the spec's `InvariantViolation`), not `AlreadyMeasured`, though the state
is left unchanged. -/
theorem measured_contract_not_alreadyMeasured :
    (BState.contract eighC4 stMeasC9 .label (1/2)).2 = some .assertionFailed ∧
      some PwError.assertionFailed ≠ some PwError.alreadyMeasured ∧
      (BState.contract eighC4 stMeasC9 .label (1/2)).1 = stMeasC9 :=
  ⟨rfl, by decide, rfl⟩

/-- C9 (amended): an Envelope whose measured flag is set (with the cleared
state that `_set_measured` establishes) rejects measurement with
`AlreadyMeasured` before any mutation; operator application delegates to the
measured subsystem and rejects with `AlreadyMeasured` leaving the envelope
unchanged; expansion of its subsystem rejects with `AlreadyMeasured`; but
contraction does NOT reject with `AlreadyMeasured` — it leaves the
subsystem unchanged and at most fails the missing-representation-data
`assert` — so the envelope is left unchanged by all four, while only
measurement, expansion and operator application report `AlreadyMeasured`. -/
theorem measured_envelope_terminal {d : Nat}
    (npChoiceR : Nat → List ℝ → Nat × Nat)
    (fockMeasure : Bool → BState ℂ (d + 1) → Except PwError Nat × BState ℂ (d + 1))
    (impl : BState ℂ (d + 1) → BState ℂ (d + 1))
    (U : Matrix (Fin (d + 1) × Fin 2) (Fin (d + 1) × Fin 2) ℂ) (renorm : Bool)
    (e : EnvelopeM (d + 1)) (npState : Nat) (nonDestructive removeComposite : Bool)
    (eigh : Matrix (Fin (d + 1)) (Fin (d + 1)) ℂ →
      (Fin (d + 1) → ℝ) × Matrix (Fin (d + 1)) (Fin (d + 1)) ℂ)
    (final : ExpansionLevel) (tol : ℝ)
    (hm : e.measured = true) (hfm : e.fock.measured = true)
    (hfv : e.fock.stateVector = none) (hfd : e.fock.densityMatrix = none)
    (hcv : e.compositeVector = none) (hcm : e.compositeMatrix = none) :
    envelopeMeasure npChoiceR fockMeasure e npState nonDestructive removeComposite =
        (.error .alreadyMeasured, e, npState) ∧
      envApplyOperationFock (subApplyOperation impl) U renorm e =
        (e, some .alreadyMeasured) ∧
      e.fock.expand = (e.fock, some .alreadyMeasured) ∧
      (BState.contract eigh e.fock final tol).1 = e.fock ∧
      (BState.contract eigh e.fock final tol).2 ≠ some PwError.alreadyMeasured := by
  have hcontract : BState.contract eigh e.fock final tol = (e.fock, none) ∨
      BState.contract eigh e.fock final tol = (e.fock, some .assertionFailed) := by
    by_cases h1 : e.fock.expansionLevel = .matrix ∧ final < .matrix
    · have hms : contractMatrixStep eigh e.fock final tol = (e.fock, some .assertionFailed) := by
        simp only [contractMatrixStep, hfd]
        rw [if_pos h1]
      right
      simp only [BState.contract, hms]
    · have hms : contractMatrixStep eigh e.fock final tol = (e.fock, none) := by
        simp only [contractMatrixStep]
        rw [if_neg h1]
      by_cases h2 : e.fock.expansionLevel = .vector ∧ final < .vector
      · right
        simp only [BState.contract, hms, contractVectorStep, hfv]
        rw [if_pos h2]
      · left
        simp only [BState.contract, hms, contractVectorStep]
        rw [if_neg h2]
  refine ⟨?_, ?_, ?_, ?_, ?_⟩
  · simp only [envelopeMeasure, hm]
    rfl
  · have hs : subApplyOperation impl e.fock = (e.fock, some .alreadyMeasured) := by
      rw [subApplyOperation, if_pos hfm]
    obtain ⟨f, p, cv, cm, m⟩ := e
    simp only at hcv hcm hs
    subst hcv hcm
    simp only [envApplyOperationFock, hs]
  · simp only [BState.expand, hfm]
    rfl
  · rcases hcontract with h | h <;> rw [h]
  · rcases hcontract with h | h <;> rw [h] <;> simp

/-- A fully measured envelope as `_set_measured` leaves it: flag set, both
composite arrays dropped, both subsystems measured and cleared. -/
def envC9 : EnvelopeM 2 where
  fock := stMeasC9
  polarization := stMeasC9
  compositeVector := none
  compositeMatrix := none
  measured := true

/-- A numpy-choice stand-in that returns the state untouched. -/
def npChoiceC9 : Nat → List ℝ → Nat × Nat := fun st _ => (st, st)

/-- A fock-measure stand-in returning outcome 0 and the untouched state. -/
def fockMeasureC9 : Bool → BState ℂ 2 → Except PwError Nat × BState ℂ 2 :=
  fun _ s => (.ok 0, s)

/-- Witness for the amended C9 theorem on the concrete measured envelope
`envC9`. -/
theorem measured_envelope_terminal_witness :
    envC9.measured = true ∧ envC9.fock.measured = true ∧
      envC9.compositeVector = none ∧ envC9.compositeMatrix = none ∧
      (envelopeMeasure npChoiceC9 fockMeasureC9 envC9 0 false true =
          (.error .alreadyMeasured, envC9, 0) ∧
        envApplyOperationFock (subApplyOperation id) 1 false envC9 =
          (envC9, some .alreadyMeasured) ∧
        envC9.fock.expand = (envC9.fock, some .alreadyMeasured) ∧
        (BState.contract eighC4 envC9.fock .label (1/2)).1 = envC9.fock ∧
        (BState.contract eighC4 envC9.fock .label (1/2)).2 ≠
          some PwError.alreadyMeasured) :=
  ⟨rfl, rfl, rfl, rfl,
    @measured_envelope_terminal 1 npChoiceC9 fockMeasureC9 id 1 false envC9 0
      false true eighC4 .label (1/2) rfl rfl rfl rfl rfl rfl⟩

section C7Model

open Kronecker

/-- Annihilation-shaped fock operator at cutoff 2 (`operation.operator`). -/
def AannC7 : Matrix (Fin 2) (Fin 2) ℂ := !![0, 1; 0, 0]

/-- The identity-padded composite operator `np.kron(operators)` built by
`Envelope.apply_operation` (`envelope.py` lines 167-174), fock in slot 0. -/
noncomputable def UC7 : Matrix (Fin 2 × Fin 2) (Fin 2 × Fin 2) ℂ :=
  AannC7 ⊗ₖ (1 : Matrix (Fin 2) (Fin 2) ℂ)

/-- Maximally mixed composite density matrix on the 4-dimensional product
space: a legitimate state with trace 1. -/
noncomputable def rhoC7 : Matrix (Fin 2 × Fin 2) (Fin 2 × Fin 2) ℂ :=
  ((1/4 : ℝ) : ℂ) • 1

/-- An unmeasured label-level fock slot for the C7 envelope. -/
def stFockC7 : BState ℂ 2 where
  expansionLevel := .label
  label := some 0
  stateVector := none
  densityMatrix := none
  measured := false

/-- An envelope combined into composite-matrix form holding `rhoC7`. -/
noncomputable def envC7 : EnvelopeM 2 where
  fock := stFockC7
  polarization := stFockC7
  compositeVector := none
  compositeMatrix := some rhoC7
  measured := false

lemma kron_conjTranspose_two (A B : Matrix (Fin 2) (Fin 2) ℂ) :
    (A ⊗ₖ B).conjTranspose = A.conjTranspose ⊗ₖ B.conjTranspose := by
  ext i j
  obtain ⟨i1, i2⟩ := i
  obtain ⟨j1, j2⟩ := j
  simp [Matrix.conjTranspose_apply, Matrix.kroneckerMap_apply, star_mul']

lemma AannC7_mul_star : AannC7 * AannC7.conjTranspose = !![1, 0; 0, 0] := by
  ext i j
  fin_cases i <;> fin_cases j <;>
    simp [AannC7, Matrix.mul_apply, Fin.sum_univ_two, Matrix.conjTranspose_apply]

lemma rho1C7_eq : UC7 * rhoC7 * UC7.conjTranspose =
    ((1/4 : ℝ) : ℂ) • ((!![1, 0; 0, 0] : Matrix (Fin 2) (Fin 2) ℂ) ⊗ₖ 1) := by
  rw [UC7, rhoC7, kron_conjTranspose_two, Matrix.mul_smul, Matrix.mul_one,
    Matrix.smul_mul, Matrix.conjTranspose_one, ← Matrix.mul_kronecker_mul,
    Matrix.mul_one, AannC7_mul_star]

lemma trace_rho1C7 : (UC7 * rhoC7 * UC7.conjTranspose).trace = ((1/2 : ℝ) : ℂ) := by
  rw [rho1C7_eq, Matrix.trace_smul, Matrix.trace_kronecker, Matrix.trace_one]
  simp [Matrix.trace_fin_two, smul_eq_mul]
  norm_num

lemma frob_rho1C7 : frobNorm (UC7 * rhoC7 * UC7.conjTranspose) = Real.sqrt (1/8) := by
  rw [rho1C7_eq, frobNorm]
  congr 1
  norm_num [Fintype.sum_prod_type, Fin.sum_univ_two, Matrix.smul_apply,
    Matrix.kroneckerMap_apply, Matrix.one_fin_two, smul_eq_mul,
    Complex.normSq_mul, Complex.normSq_ofReal]

/-- C7 counterexample: `Envelope.apply_operation` renormalizes a composite
MATRIX by `np.linalg.norm` — the Frobenius norm — not by the trace.
Applying the renormalizing padded annihilation operator to the maximally
mixed trace-1 composite state stores a density matrix of trace √2 ≠ 1,
refuting the claimed trace renormalization to 1. -/
theorem apply_operation_matrix_renorm_trace_ne_one :
    envApplyOperationFock (subApplyOperation id) UC7 true envC7 =
      ({ envC7 with compositeMatrix := some (applyOperationMatrixBranch UC7 rhoC7 true) },
        none) ∧
      rhoC7.trace = 1 ∧
      (applyOperationMatrixBranch UC7 rhoC7 true).trace = ((Real.sqrt 2 : ℝ) : ℂ) ∧
      ((Real.sqrt 2 : ℝ) : ℂ) ≠ 1 := by
  refine ⟨rfl, ?_, ?_, ?_⟩
  · rw [rhoC7, Matrix.trace_smul, Matrix.trace_one]
    simp [smul_eq_mul, Fintype.card_prod, Fintype.card_fin]
  · have hb : applyOperationMatrixBranch UC7 rhoC7 true =
        ((Real.sqrt (1/8) : ℝ) : ℂ)⁻¹ • (UC7 * rhoC7 * UC7.conjTranspose) := by
      rw [show applyOperationMatrixBranch UC7 rhoC7 true =
          ((frobNorm (UC7 * rhoC7 * UC7.conjTranspose) : ℝ) : ℂ)⁻¹ •
            (UC7 * rhoC7 * UC7.conjTranspose) from rfl, frob_rho1C7]
    rw [hb, Matrix.trace_smul, trace_rho1C7, smul_eq_mul]
    rw [← Complex.ofReal_inv, ← Complex.ofReal_mul]
    norm_cast
    rw [← Real.sqrt_inv]
    norm_num
    rw [show (8:ℝ) = 2^2 * 2 by norm_num, Real.sqrt_mul (by positivity),
      Real.sqrt_sq (by norm_num)]
    ring
  · intro h
    have h2 : Real.sqrt 2 = 1 := by exact_mod_cast h
    have h3 := Real.sq_sqrt (by norm_num : (0:ℝ) ≤ 2)
    rw [h2] at h3
    norm_num at h3

end C7Model

end PhotonWeave
